import Mathlib

/-!
Verification of the store-inventory program (`src/app.py`) against its
natural-language specification.

The development shallowly embeds the program's core:

* `PyDate`, `Product` — the data model (`datetime.date` and the peewee
  `Product` model; the auto-assigned `product_id` is not modelled since no
  claim mentions it, and rows are kept in insertion order, matching
  `Product.select()`'s primary-key order).
* `save_product` / `update_latest` — the reconcile step shared by
  `Inventory._save_csv`'s loop body and `Inventory._save_product`:
  `new.save()` appends a fresh row unless the UNIQUE constraint on
  `product_name` fires (`IntegrityError`), in which case
  `Inventory._update_latest` fetches the stored row with that name and
  overwrites its quantity/price/date in place iff the stored date is
  strictly older.
* a character-exact model of the price regex `\d+.?\d{0,2}` (note the
  unescaped `.`), of Python's `float`/`int` string conversions, and of
  IEEE-754 binary64 arithmetic: a finite double is represented exactly as
  `m * 2^e` (`Dbl`); rounding is round-nearest-ties-to-even, and a result
  past the largest finite double becomes `±inf` (`PyFloat`), on which
  `int()` raises `OverflowError`.
* the CSV import pipeline (`_load_csv`/`_convert_csv`/`_save_csv`) and the
  backup pipeline (`_load_db`/`_convert_db`/`_save_db`).
-/

/-- Model of `datetime.date`: a plain calendar triple.  (`strptime` only
produces valid dates; validity is enforced by `strptime_mdY` below, not by
the type, just as in Python where `date` fields are validated at
construction.) -/
structure PyDate where
  year : Nat
  month : Nat
  day : Nat
deriving DecidableEq

/-- Model of `<` on `datetime.date`: lexicographic on (year, month, day). -/
def PyDate.lt (a b : PyDate) : Bool :=
  decide (a.year < b.year ∨ (a.year = b.year ∧
    (a.month < b.month ∨ (a.month = b.month ∧ a.day < b.day))))

/-- Model of the peewee `Product` row (minus the auto primary key, which no
claim mentions).  Quantity and price are `IntegerField`s, hence `ℤ`. -/
structure Product where
  product_name : String
  product_quantity : Int
  product_price : Int
  date_updated : PyDate
deriving DecidableEq

/-- Outcome of submitting one record, distinguishing the three code paths of
the reconcile step (`new.save()` succeeded / `_update_latest` saved /
`_update_latest` left the store alone). -/
inductive SaveResult where
  | inserted
  | updated
  | skipped
deriving DecidableEq

/-- Model of `existing.save()` after `_update_latest` copied the candidate's
quantity/price/date onto the fetched row: the first row whose name matches
is overwritten in place (the UNIQUE constraint guarantees there is at most
one, and `Product.get` returns the first). -/
def overwrite_first : List Product → Product → List Product
  | [], _ => []
  | r :: rs, c =>
    if r.product_name == c.product_name then
      { r with product_quantity := c.product_quantity,
               product_price := c.product_price,
               date_updated := c.date_updated } :: rs
    else
      r :: overwrite_first rs c

/-- Model of `Inventory._update_latest`: fetch the stored row with the
candidate's name; if its date is strictly older, overwrite its
quantity/price/date and save.  The `none` branch is unreachable from
`save_product` (in Python, `Product.get` would raise `DoesNotExist`). -/
def update_latest (store : List Product) (new : Product) : List Product × SaveResult :=
  match store.find? (fun r => r.product_name == new.product_name) with
  | none => (store, SaveResult.skipped)
  | some existing =>
    if existing.date_updated.lt new.date_updated then
      (overwrite_first store new, SaveResult.updated)
    else
      (store, SaveResult.skipped)

/-- Model of the reconcile step (the `try: new.save() except IntegrityError:
self._update_latest(new)` pattern of `_save_csv` and `_save_product`):
insertion appends a row; it fails with `IntegrityError` exactly when a row
with the same `product_name` already exists. -/
def save_product (store : List Product) (new : Product) : List Product × SaveResult :=
  if store.any (fun r => r.product_name == new.product_name) then
    update_latest store new
  else
    (store ++ [new], SaveResult.inserted)

/-- Model of `Inventory._save_csv`'s loop over converted rows (and, more
generally, of any sequence of reconcile submissions). -/
def save_csv (store : List Product) (rows : List Product) : List Product :=
  rows.foldl (fun db r => (save_product db r).1) store

/-- Model of `str.split` on `'/'` (accumulator-based so the kernel can
evaluate it). -/
def splitSlashAux : List Char → List Char → List (List Char)
  | [], acc => [acc.reverse]
  | c :: t, acc =>
    if c == '/' then acc.reverse :: splitSlashAux t [] else splitSlashAux t (c :: acc)

def splitSlash (cs : List Char) : List (List Char) := splitSlashAux cs []

/-- Numeric value of a list of decimal digit characters (most significant
first), as read by Python's `int`/`float`. -/
def digitsVal (ds : List Char) : Nat :=
  ds.foldl (fun a c => 10 * a + (c.toNat - 48)) 0

/-- Greedy `\d{0,2}` at the current position: up to two digit characters. -/
def regexTake2 : List Char → List Char
  | c1 :: c2 :: _ => if c1.isDigit then (if c2.isDigit then [c1, c2] else [c1]) else []
  | [c1] => if c1.isDigit then [c1] else []
  | [] => []

/-- Continuation of the match after the maximal digit run: `.?` consumes
one character when present and not a newline (`.` matches any character
except a newline), then `\d{0,2}` consumes up to two digits. -/
def regexAfterDigits : List Char → List Char
  | [] => []
  | c :: rest => if c == '\n' then [] else c :: regexTake2 rest

/-- Match of the pattern `\d+.?\d{0,2}` (note the unescaped `.`) anchored
at the current position.  `\d+` is greedy, so it takes the maximal digit
run; the following character is then never a digit, so no backtracking can
occur and the rest of the pattern proceeds by `regexAfterDigits`. -/
def regexMatchAt (cs : List Char) : Option (List Char) :=
  let d1 := cs.takeWhile Char.isDigit
  if d1.isEmpty then none
  else some (d1 ++ regexAfterDigits (cs.drop d1.length))

/-- Model of `re.search(r"\d+.?\d{0,2}", s)`: the leftmost position at which
the pattern matches.  A match must begin with a digit, so the search is
equivalent to sliding to the first digit. -/
def regexSearch : List Char → Option (List Char)
  | [] => none
  | c :: cs => if c.isDigit then regexMatchAt (c :: cs) else regexSearch cs

/-- Digits, optional point, digits part of a `float` literal: value returned
as an exact pair (numerator, positive power-of-ten denominator) together
with the unconsumed rest.  Fails when no digit is present on either side of
the point. -/
def parseDecCore (cs : List Char) : Option ((Nat × Nat) × List Char) :=
  let ip := cs.takeWhile Char.isDigit
  let rest := cs.drop ip.length
  match rest with
  | '.' :: rest2 =>
    let fp := rest2.takeWhile Char.isDigit
    if ip.isEmpty && fp.isEmpty then none
    else some ((digitsVal ip * 10 ^ fp.length + digitsVal fp, 10 ^ fp.length),
               rest2.drop fp.length)
  | _ => if ip.isEmpty then none else some ((digitsVal ip, 1), rest)

/-- Signed exponent tail of a `float` literal after `e`/`E`: optional sign,
then digits, then optional trailing whitespace and nothing else. -/
def parseExpSigned (cs : List Char) : Option Int :=
  match cs with
  | [] => none
  | c :: t =>
    let st : Int × List Char :=
      if c == '-' then (-1, t) else if c == '+' then (1, t) else (1, c :: t)
    let ds := st.2.takeWhile Char.isDigit
    if ds.isEmpty then none
    else if ((st.2.drop ds.length).dropWhile Char.isWhitespace).isEmpty then
      some (st.1 * (digitsVal ds : Int))
    else none

/-- Scale an exact decimal pair by `10 ^ ex`. -/
def applyExp (v : Nat × Nat) (ex : Int) : Nat × Nat :=
  if 0 ≤ ex then (v.1 * 10 ^ ex.toNat, v.2) else (v.1, v.2 * 10 ^ (-ex).toNat)

/-- Unsigned part of a `float` literal: mantissa, optional exponent,
optional trailing whitespace. -/
def pyFloatMag (cs : List Char) : Option (Nat × Nat) :=
  match parseDecCore cs with
  | none => none
  | some (v, rest) =>
    match rest with
    | [] => some v
    | c :: t =>
      if c == 'e' || c == 'E' then
        match parseExpSigned t with
        | none => none
        | some ex => some (applyExp v ex)
      else if ((c :: t).dropWhile Char.isWhitespace).isEmpty then some v
      else none

/-- Model of the grammar accepted by Python's `float(str)`: optional
surrounding whitespace, optional sign, decimal mantissa, optional
`e`/`E`-exponent.  The exact rational value is returned as a pair of a
signed numerator and a positive power-of-ten denominator.  (`float` also
accepts `inf`/`nan` spellings and underscore digit separators; no string
evaluated in this development contains those, and no theorem below relies
on such a string being rejected.) -/
def pyFloatParse (cs0 : List Char) : Option (Int × Nat) :=
  let cs1 := cs0.dropWhile Char.isWhitespace
  match cs1 with
  | [] => none
  | c :: t =>
    if c == '-' then (pyFloatMag t).map (fun p => (-(p.1 : Int), p.2))
    else if c == '+' then (pyFloatMag t).map (fun p => ((p.1 : Int), p.2))
    else (pyFloatMag (c :: t)).map (fun p => ((p.1 : Int), p.2))

/-- Model of the grammar accepted by Python's `int(str)`: optional
surrounding whitespace, optional sign, decimal digits.  (Underscore digit
separators and non-ASCII digits are not modelled, as above.) -/
def pyIntParse (s : String) : Option Int :=
  let cs := s.data.dropWhile Char.isWhitespace
  match cs with
  | [] => none
  | c :: t =>
    let st : Int × List Char :=
      if c == '-' then (-1, t) else if c == '+' then (1, t) else (1, c :: t)
    let ds := st.2.takeWhile Char.isDigit
    if ds.isEmpty then none
    else if ((st.2.drop ds.length).dropWhile Char.isWhitespace).isEmpty then
      some (st.1 * (digitsVal ds : Int))
    else none

/-- Fuel-driven floor logarithm: for `1 ≤ n < b ^ fuel`, returns
`⌊log_b n⌋` (0 on fuel exhaustion; fuel 4096 covers every number in this
development). -/
def logFuel (b : Nat) : Nat → Nat → Nat
  | 0, _ => 0
  | f + 1, n => if n < b then 0 else logFuel b f (n / b) + 1

/-- Fuel-driven ceiling logarithm: for `1 ≤ n ≤ b ^ fuel`, returns
`⌈log_b n⌉`. -/
def clogFuel (b : Nat) : Nat → Nat → Nat
  | 0, _ => 0
  | f + 1, n => if n ≤ 1 then 0 else clogFuel b f ((n + b - 1) / b) + 1

/-- Floor logarithm of the positive rational `p / q` in base `b`. -/
def ilogPair (b p q : Nat) : Int :=
  if q ≤ p then (logFuel b 4096 (p / q) : Int)
  else -(clogFuel b 4096 ((q + p - 1) / p) : Int)

/-- Round `num / den` (with `den > 0`) to the nearest natural, ties to even:
the rounding mode of IEEE-754 binary64. -/
def rneNat (num den : Nat) : Nat :=
  let f := num / den
  let r := num % den
  if 2 * r < den then f
  else if den < 2 * r then f + 1
  else if f % 2 = 0 then f else f + 1

/-- Exact representation of a finite IEEE-754 binary64 value as
`m * 2 ^ e`.  Values produced by the rounding functions below are
normalised (`2^52 ≤ |m| ≤ 2^53`, or zero) with an unbounded exponent;
overflow past the binary64 finite range is decided by `dblOverflows` and
applied by `mkPyFloat` below, at the operations whose CPython counterparts
can produce an infinity. -/
structure Dbl where
  m : Int
  e : Int
deriving DecidableEq

/-- Rational value denoted by a `Dbl`. -/
def Dbl.val (d : Dbl) : ℚ := (d.m : ℚ) * (2 : ℚ) ^ d.e

def Dbl.neg (d : Dbl) : Dbl := ⟨-d.m, d.e⟩

/-- Correctly round the rational `p / q` (`p ≥ 0`, `q ≥ 1`) to binary64:
scale into `[2^52, 2^53)`, round the scaled mantissa to nearest (ties to
even). -/
def roundPosRat (p q : Nat) : Dbl :=
  if p = 0 then ⟨0, 0⟩
  else
    let e : Int := ilogPair 2 p q - 52
    ⟨(rneNat (p * 2 ^ (-e).toNat) (q * 2 ^ e.toNat) : Int), e⟩

/-- Correctly round the signed rational `a / b` (`b ≥ 1`) to binary64.
This models both `float(decimal-literal)` and CPython's correctly rounded
`int / int` true division. -/
def roundRat (a : Int) (b : Nat) : Dbl :=
  if a < 0 then (roundPosRat (-a).toNat b).neg else roundPosRat a.toNat b

/-- Correctly round the value `p * 2 ^ e` (`p ≥ 0`) to binary64. -/
def roundScaledN (p : Nat) (e : Int) : Dbl :=
  if 0 ≤ e then roundPosRat (p * 2 ^ e.toNat) 1 else roundPosRat p (2 ^ (-e).toNat)

/-- Binary64 multiplication of a double by a small exactly representable
natural (used for `* 100`): the exact product, correctly rounded. -/
def dblMulNat (d : Dbl) (n : Nat) : Dbl :=
  if d.m < 0 then (roundScaledN ((-d.m).toNat * n) d.e).neg
  else roundScaledN (d.m.toNat * n) d.e

def dblTruncNat (m : Nat) (e : Int) : Nat :=
  if 0 ≤ e then m * 2 ^ e.toNat else m / 2 ^ (-e).toNat

/-- Model of Python's `int(float)`: truncation toward zero. -/
def dblTrunc (d : Dbl) : Int :=
  if d.m < 0 then -(dblTruncNat (-d.m).toNat d.e : Int) else (dblTruncNat d.m.toNat d.e : Int)

/-- Overflow test against the binary64 finite range.  With round to
nearest, ties to even, a real number rounds to an infinity exactly when
rounding it with unbounded exponent range yields a magnitude of at least
`2 ^ 1024`: the overflow threshold is `2 ^ 1024 - 2 ^ 970`, and the tie at
the threshold rounds up to `2 ^ 1024` because the mantissa `2 ^ 53` is
even.  The rounding functions above are unbounded-range, so this test
applied to their results decides overflow. -/
def dblOverflows (d : Dbl) : Bool :=
  if 0 ≤ d.e then decide (2 ^ 1024 ≤ d.m.natAbs * 2 ^ d.e.toNat)
  else decide (2 ^ 1024 * 2 ^ (-d.e).toNat ≤ d.m.natAbs)

/-- Result of a float-producing operation in CPython: a finite binary64
value, or an infinity.  `float(str)` and float arithmetic do not raise on
overflow — they return `±inf`; the exception surfaces only when `int()`
meets the infinity (`OverflowError`).  NaN never arises in this program's
pipelines. -/
inductive PyFloat where
  | finite (d : Dbl)
  | inf (neg : Bool)
deriving DecidableEq

/-- Clamp an unbounded-range rounded value into a CPython float: overflow
becomes the appropriately signed infinity. -/
def mkPyFloat (d : Dbl) : PyFloat :=
  if dblOverflows d then .inf (decide (d.m < 0)) else .finite d

/-- Model of `float(s)` on a character list: parse the literal, round its
exact value to binary64; a magnitude beyond the largest finite double
(about `1.8e308`) becomes `±inf` without raising.  Below the normal range
the model keeps the unbounded-exponent value instead of the subnormal
rounding: the program only truncates its floats to int or multiplies them
by 100, and on every value below `2 ^ -1000` the two models agree under
both operations (the difference lives in `(0, 2 ^ -1000)` and is
truncated to 0 either way). -/
def pyFloat (cs : List Char) : Option PyFloat :=
  (pyFloatParse cs).map (fun v => mkPyFloat (roundRat v.1 v.2))

/-- Binary64 multiplication of a CPython float by a positive exactly
representable natural (the program only uses `* 100`): exact product,
correctly rounded, overflowing to infinity; an infinite operand stays
infinite. -/
def pyMulNat (f : PyFloat) (n : Nat) : PyFloat :=
  match f with
  | .finite d => mkPyFloat (dblMulNat d n)
  | .inf b => .inf b

instance {ε α : Type} [DecidableEq ε] [DecidableEq α] : DecidableEq (Except ε α)
  | .error a, .error b =>
    if h : a = b then .isTrue (by rw [h]) else .isFalse (fun hc => by cases hc; exact h rfl)
  | .error _, .ok _ => .isFalse (fun hc => by cases hc)
  | .ok _, .error _ => .isFalse (fun hc => by cases hc)
  | .ok a, .ok b =>
    if h : a = b then .isTrue (by rw [h]) else .isFalse (fun hc => by cases hc; exact h rfl)

/-- Failure modes of the price coercion in `Inventory._convert_csv`.  All
are uncaught exceptions in the Python program: `attr` is the
`AttributeError` from calling `.group()` on a failed `re.search`, `value`
the `ValueError` from `float()` on extracted text that is not a float
literal, and `overflow` the `OverflowError` from `int()` on the infinity
that `float()` returns when the extracted amount exceeds the binary64
finite range. -/
inductive PriceFail where
  | attr
  | value
  | overflow
deriving DecidableEq

/-- Model of the price coercion
`int(float(re.search(r"\d+.?\d{0,2}", cell).group()) * 100)`. -/
def convert_price (s : String) : Except PriceFail Int :=
  match regexSearch s.data with
  | none => .error .attr
  | some mt =>
    match pyFloat mt with
    | none => .error .value
    | some f =>
      match pyMulNat f 100 with
      | .finite d => .ok (dblTrunc d)
      | .inf _ => .error .overflow

def isLeap (y : Nat) : Bool := (y % 4 == 0 && y % 100 != 0) || y % 400 == 0

def daysInMonth (y m : Nat) : Nat :=
  if m = 2 then (if isLeap y then 29 else 28)
  else if m = 4 ∨ m = 6 ∨ m = 9 ∨ m = 11 then 30 else 31

/-- Model of `datetime.datetime.strptime(s, "%m/%d/%Y").date()`: one- or
two-digit month and day, four-digit year, slash-separated, forming a valid
calendar date. -/
def strptime_mdY (s : String) : Option PyDate :=
  match splitSlash s.data with
  | [ms, ds, ys] =>
    let m := digitsVal ms
    let d := digitsVal ds
    let y := digitsVal ys
    if 1 ≤ ms.length ∧ ms.length ≤ 2 ∧ ms.all Char.isDigit = true ∧
       1 ≤ ds.length ∧ ds.length ≤ 2 ∧ ds.all Char.isDigit = true ∧
       ys.length = 4 ∧ ys.all Char.isDigit = true ∧
       1 ≤ m ∧ m ≤ 12 ∧ 1 ≤ d ∧ d ≤ daysInMonth y m
    then some ⟨y, m, d⟩ else none
  | _ => none

/-- One raw row of `inventory.csv` as produced by `csv.DictReader`. -/
structure CsvRow where
  product_name : String
  product_price : String
  product_quantity : String
  date_updated : String

/-- First uncaught exception raised while converting a row in
`Inventory._convert_csv` (price is converted first, then quantity, then
date, so an earlier field's failure shadows later ones). -/
inductive RowFail where
  | price_attr
  | price_value
  | price_overflow
  | quantity_value
  | date_value
deriving DecidableEq

/-- Conversion of one row, in the source's field order. -/
def convert_row (r : CsvRow) : Except RowFail Product :=
  match convert_price r.product_price with
  | .error .attr => .error .price_attr
  | .error .value => .error .price_value
  | .error .overflow => .error .price_overflow
  | .ok cents =>
    match pyIntParse r.product_quantity with
    | none => .error .quantity_value
    | some q =>
      match strptime_mdY r.date_updated with
      | none => .error .date_value
      | some dt => .ok ⟨r.product_name, q, cents, dt⟩

/-- Model of `Inventory._convert_csv`: rows are converted in order and the
first failing field raises, aborting the loop (there is no `try`/`except`
around it). -/
def convert_csv : List CsvRow → Except RowFail (List Product)
  | [] => .ok []
  | r :: rs =>
    match convert_row r with
    | .error e => .error e
    | .ok p =>
      match convert_csv rs with
      | .error e => .error e
      | .ok ps => .ok (p :: ps)

/-- Model of the import phase of `Inventory.go`: `_convert_csv` runs to
completion before `_save_csv` starts, so an exception during conversion
reaches the top level before any row is saved and the store is left
untouched. -/
def import_csv (store : List Product) (rows : List CsvRow) : Except RowFail (List Product) :=
  match convert_csv rows with
  | .error e => .error e
  | .ok ps => .ok (save_csv store ps)

/-- Model of the quantity coercion `int(input)` in
`Inventory._get_product_info` (interactive add). -/
def get_product_quantity (s : String) : Option Int := pyIntParse s

/-- Model of the price coercion `int(float(input) * 100)` in
`Inventory._get_product_info` (interactive add; no sign or range check).
`none` covers both exits without a value: the `ValueError` the retry loop
catches and re-prompts on, and the `OverflowError` `int()` raises on an
infinite float — which `except ValueError` does not catch, so it escapes
the loop; no statement below distinguishes the two on this path. -/
def get_product_price (s : String) : Option Int :=
  match pyFloat s.data with
  | none => none
  | some f =>
    match pyMulNat f 100 with
    | .finite d => some (dblTrunc d)
    | .inf _ => none

/-- Value held in one cell of a backup row: the dictionaries built by
`_load_db` hold ints and a date, and `_convert_db` replaces them by
strings in place, so a cell is dynamically typed. -/
inductive Cell where
  | s (v : String)
  | i (v : Int)
  | d (v : PyDate)
deriving DecidableEq

/-- One dictionary of `Inventory.products` during the backup pipeline. -/
structure BackupRow where
  product_name : String
  product_price : Cell
  product_quantity : Cell
  date_updated : Cell
deriving DecidableEq

/-- Model of `Inventory._load_db`: append one dictionary per stored row, in
select-order, onto `self.products` (the caller appends — `_load_db` never
clears the list). -/
def load_db (db : List Product) : List BackupRow :=
  db.map (fun p =>
    ⟨p.product_name, .i p.product_price, .i p.product_quantity, .d p.date_updated⟩)

def pad2 (n : Nat) : String := if n < 10 then "0" ++ Nat.repr n else Nat.repr n

def pad4 (n : Nat) : String :=
  if n < 10 then "000" ++ Nat.repr n
  else if n < 100 then "00" ++ Nat.repr n
  else if n < 1000 then "0" ++ Nat.repr n
  else Nat.repr n

/-- Model of `date.strftime("%m/%d/%Y")`: zero-padded month and day,
four-digit year. -/
def strftime_out_mdY (d : PyDate) : String :=
  pad2 d.month ++ "/" ++ pad2 d.day ++ "/" ++ pad4 d.year

/-- Model of `str` on a Python int. -/
def intRepr (n : Int) : String :=
  if n < 0 then "-" ++ Nat.repr (-n).toNat else Nat.repr n.toNat

/-- Model of `str` on a `datetime.date` (ISO form), for completeness of
`cellStr`; no claim exercises this branch. -/
def dateIsoRepr (d : PyDate) : String :=
  pad4 d.year ++ "-" ++ pad2 d.month ++ "-" ++ pad2 d.day

/-- Model of the `str()` coercion `csv.DictWriter` applies to each cell
value when writing a row. -/
def cellStr : Cell → String
  | .s v => v
  | .i v => intRepr v
  | .d v => dateIsoRepr v

/-- Binary64 value of the decimal `a * 10 ^ t` (used to check whether a
candidate decimal output round-trips). -/
def dblOfDec (a : Nat) (t : Int) : Dbl :=
  if 0 ≤ t then roundPosRat (a * 10 ^ t.toNat) 1 else roundPosRat a (10 ^ (-t).toNat)

/-- Value equality of two mantissa-exponent pairs (robust to
non-normalised representations). -/
def dblValEq (x y : Dbl) : Bool :=
  if x.e ≤ y.e then x.m == y.m * 2 ^ (y.e - x.e).toNat
  else y.m == x.m * 2 ^ (x.e - y.e).toNat

/-- Decimal exponent (floor log10) of a positive double. -/
def ilog10Dbl (v : Dbl) : Int :=
  ilogPair 10 (v.m.toNat * 2 ^ v.e.toNat) (2 ^ (-v.e).toNat)

/-- Nearest `k`-significant-digit decimal to the positive double `v` whose
leading digit has decimal exponent `E`: the digit block, rounded to
nearest (ties to even). -/
def sigDigitsAt (v : Dbl) (E : Int) (k : Nat) : Nat :=
  rneNat (v.m.toNat * 2 ^ v.e.toNat * 10 ^ ((k : Int) - 1 - E).toNat)
         (2 ^ (-v.e).toNat * 10 ^ (-((k : Int) - 1 - E)).toNat)

/-- Shortest-first search for a decimal that rounds back to `v`: try 1, 2,
… significant digits, keeping the first candidate that round-trips (17
always suffices for binary64, hence the fuel). -/
def shortestDigits : Nat → Dbl → Int → Nat → Nat × Nat
  | 0, v, E, k => (sigDigitsAt v E k, k)
  | f + 1, v, E, k =>
    let dg := sigDigitsAt v E k
    if dblValEq (dblOfDec dg (E - (k : Int) + 1)) v then (dg, k)
    else shortestDigits f v E (k + 1)

/-- Model of CPython `repr`/`str` on a positive finite float: the shortest
decimal string that round-trips through binary64 (nearest candidate
first), rendered in fixed notation when the decimal exponent lies in
`[-4, 15]` and in scientific notation (two-digit-padded exponent)
otherwise. -/
def pyReprPos (v : Dbl) : String :=
  let E := ilog10Dbl v
  let dk := shortestDigits 16 v E 1
  let s := Nat.repr dk.1
  let p : Int := E + 1 + ((s.length : Int) - (dk.2 : Int))
  if -4 ≤ p - 1 ∧ p - 1 ≤ 15 then
    if (s.length : Int) ≤ p then
      String.mk (s.data ++ List.replicate (p - s.length).toNat '0') ++ ".0"
    else if 0 < p then
      String.mk (s.data.take p.toNat) ++ "." ++ String.mk (s.data.drop p.toNat)
    else "0." ++ String.mk (List.replicate (-p).toNat '0' ++ s.data)
  else
    String.mk [s.data.headD '0'] ++
      (if 1 < s.length then "." ++ String.mk s.data.tail else "") ++
      "e" ++ (if p - 1 < 0 then "-" else "+") ++
      (if (p - 1).natAbs < 10 then "0" ++ Nat.repr (p - 1).natAbs
       else Nat.repr (p - 1).natAbs)

/-- Model of `str` on a finite float (`f"${...}"` formatting calls it). -/
def pyRepr (d : Dbl) : String :=
  if d.m = 0 then "0.0"
  else if d.m < 0 then "-" ++ pyReprPos ⟨-d.m, d.e⟩
  else pyReprPos d

/-- Failure modes of one row of `Inventory._convert_db`: dividing a
non-int price by 100, or `strftime` on a non-date, each raise an uncaught
`TypeError` (the `str()` applied to the quantity never fails). -/
inductive BackupFail where
  | price_type
  | date_type
deriving DecidableEq

/-- Model of one iteration of `Inventory._convert_db`: price becomes
`f"${price/100}"` (true division in binary64, then float `str`), quantity
becomes `str(quantity)`, date becomes `strftime("%m/%d/%Y")`. -/
def convert_db_row (r : BackupRow) : Except BackupFail BackupRow :=
  match r.product_price with
  | .i p =>
    match r.date_updated with
    | .d dt =>
      .ok ⟨r.product_name, .s ("$" ++ pyRepr (roundRat p 100)),
        .s (cellStr r.product_quantity), .s (strftime_out_mdY dt)⟩
    | _ => .error .date_type
  | _ => .error .price_type

/-- Model of `Inventory._convert_db`'s loop: first `TypeError` propagates
and kills the run. -/
def convert_db : List BackupRow → Except BackupFail (List BackupRow)
  | [] => .ok []
  | r :: rs =>
    match convert_db_row r with
    | .error e => .error e
    | .ok r2 =>
      match convert_db rs with
      | .error e => .error e
      | .ok rs2 => .ok (r2 :: rs2)

/-- Field names of the import file, as read by `csv.DictReader` and
indexed throughout `_convert_csv`/`_save_csv` (order per the external
interface). -/
def import_fieldnames : List String :=
  ["product_name", "product_price", "product_quantity", "date_updated"]

/-- Model of `Inventory._save_db`: header row from the `fieldnames` list,
then one row per dictionary with `str()` applied to each value. -/
def save_db (rows : List BackupRow) : List (List String) :=
  import_fieldnames ::
    rows.map (fun r => [r.product_name, cellStr r.product_price,
      cellStr r.product_quantity, cellStr r.date_updated])

/-- Model of `Inventory._backup` acting on the pair (database rows,
`self.products`): `_load_db` appends to the existing `self.products`
without clearing it, `_convert_db` converts in place (so the converted
rows remain in `self.products` afterwards), `_save_db` rewrites
`backup.csv` in full. -/
def backup (db : List Product) (products : List BackupRow) :
    Except BackupFail (List (List String) × List BackupRow) :=
  match convert_db (products ++ load_db db) with
  | .error e => .error e
  | .ok conv => .ok (save_db conv, conv)

theorem PyDate.lt_irrefl (d : PyDate) : d.lt d = false := by
  simp [PyDate.lt]

theorem PyDate.lt_asymm {a b : PyDate} (h : a.lt b = true) : b.lt a = false := by
  simp only [PyDate.lt, decide_eq_true_eq, decide_eq_false_iff_not] at *
  omega

theorem find?_first {α : Type} {p : α → Bool} :
    ∀ (pre : List α) (x : α) (suf : List α), (∀ a ∈ pre, p a = false) → p x = true →
      (pre ++ x :: suf).find? p = some x := by
  intro pre x suf hpre hx
  induction pre with
  | nil => simp [List.find?, hx]
  | cons a t ih =>
    have ha : p a = false := hpre a (by simp)
    simp only [List.cons_append, List.find?, ha]
    exact ih (fun b hb => hpre b (by simp [hb]))

theorem save_product_insert (store : List Product) (c : Product)
    (h : ∀ r ∈ store, r.product_name ≠ c.product_name) :
    save_product store c = (store ++ [c], SaveResult.inserted) := by
  have hany : store.any (fun r => r.product_name == c.product_name) = false := by
    rw [List.any_eq_false]
    intro r hr
    simpa using h r hr
  simp [save_product, hany]

theorem overwrite_first_append (pre : List Product) (ex : Product) (suf : List Product)
    (c : Product) (hpre : ∀ r ∈ pre, r.product_name ≠ c.product_name)
    (hex : ex.product_name = c.product_name) :
    overwrite_first (pre ++ ex :: suf) c =
      pre ++ { ex with product_quantity := c.product_quantity,
                       product_price := c.product_price,
                       date_updated := c.date_updated } :: suf := by
  induction pre with
  | nil => simp [overwrite_first, hex]
  | cons a t ih =>
    have ha : a.product_name ≠ c.product_name := hpre a (by simp)
    have hbeq : (a.product_name == c.product_name) = false := by simpa using ha
    have hrec := ih (fun r hr => hpre r (by simp [hr]))
    simp [overwrite_first, hbeq, hrec]

theorem save_product_found (pre : List Product) (ex : Product) (suf : List Product)
    (c : Product) (hpre : ∀ r ∈ pre, r.product_name ≠ c.product_name)
    (hex : ex.product_name = c.product_name) :
    save_product (pre ++ ex :: suf) c =
      (if ex.date_updated.lt c.date_updated then
        (pre ++ { ex with product_quantity := c.product_quantity,
                          product_price := c.product_price,
                          date_updated := c.date_updated } :: suf, SaveResult.updated)
      else
        (pre ++ ex :: suf, SaveResult.skipped)) := by
  have hany : (pre ++ ex :: suf).any (fun r => r.product_name == c.product_name) = true := by
    rw [List.any_eq_true]
    exact ⟨ex, by simp, by simpa using hex⟩
  have hfind : (pre ++ ex :: suf).find? (fun r => r.product_name == c.product_name) = some ex :=
    find?_first pre ex suf (fun a ha => by simpa using hpre a ha) (by simpa using hex)
  by_cases hd : ex.date_updated.lt c.date_updated
  · simp [save_product, hany, update_latest, hfind, hd,
      overwrite_first_append pre ex suf c hpre hex]
  · simp [save_product, hany, update_latest, hfind, hd]

/-- Claim C1: for every candidate submitted to the reconcile step: if no
stored row has the candidate's name it is appended as a new row; if a stored
row with that name exists and the candidate's date is strictly later, that
row's quantity, price and date are overwritten in place; otherwise (equal or
earlier date) the store is left completely unchanged. -/
theorem save_product_cases (store : List Product) (c : Product) :
    ((∀ r ∈ store, r.product_name ≠ c.product_name) →
      save_product store c = (store ++ [c], SaveResult.inserted))
    ∧ (∀ pre ex suf, store = pre ++ ex :: suf →
        ex.product_name = c.product_name →
        (∀ r ∈ pre, r.product_name ≠ c.product_name) →
        ((ex.date_updated.lt c.date_updated = true →
          save_product store c =
            (pre ++ { ex with product_quantity := c.product_quantity,
                              product_price := c.product_price,
                              date_updated := c.date_updated } :: suf, SaveResult.updated))
        ∧ (ex.date_updated.lt c.date_updated = false →
          save_product store c = (store, SaveResult.skipped)))) := by
  constructor
  · exact save_product_insert store c
  · intro pre ex suf hs hex hpre
    subst hs
    constructor
    · intro hd
      rw [save_product_found pre ex suf c hpre hex, if_pos hd]
    · intro hd
      rw [save_product_found pre ex suf c hpre hex, hd]
      simp

theorem save_product_cases_witness :
    (save_product [⟨"Nail", 10, 99, ⟨2024, 1, 1⟩⟩] ⟨"Screw", 5, 150, ⟨2024, 1, 2⟩⟩ =
      ([⟨"Nail", 10, 99, ⟨2024, 1, 1⟩⟩, ⟨"Screw", 5, 150, ⟨2024, 1, 2⟩⟩], SaveResult.inserted))
    ∧ (save_product [⟨"Nail", 10, 99, ⟨2024, 1, 1⟩⟩] ⟨"Nail", 7, 120, ⟨2024, 2, 1⟩⟩ =
      ([⟨"Nail", 7, 120, ⟨2024, 2, 1⟩⟩], SaveResult.updated))
    ∧ (save_product [⟨"Nail", 10, 99, ⟨2024, 1, 1⟩⟩] ⟨"Nail", 7, 120, ⟨2024, 1, 1⟩⟩ =
      ([⟨"Nail", 10, 99, ⟨2024, 1, 1⟩⟩], SaveResult.skipped)) := by
  refine ⟨?_, ?_, ?_⟩
  · exact (save_product_cases [⟨"Nail", 10, 99, ⟨2024, 1, 1⟩⟩]
      ⟨"Screw", 5, 150, ⟨2024, 1, 2⟩⟩).1 (by decide)
  · exact ((save_product_cases [⟨"Nail", 10, 99, ⟨2024, 1, 1⟩⟩]
      ⟨"Nail", 7, 120, ⟨2024, 2, 1⟩⟩).2 [] ⟨"Nail", 10, 99, ⟨2024, 1, 1⟩⟩ [] rfl rfl
      (by simp)).1 (by decide)
  · exact ((save_product_cases [⟨"Nail", 10, 99, ⟨2024, 1, 1⟩⟩]
      ⟨"Nail", 7, 120, ⟨2024, 1, 1⟩⟩).2 [] ⟨"Nail", 10, 99, ⟨2024, 1, 1⟩⟩ [] rfl rfl
      (by simp)).2 (by decide)

theorem overwrite_first_names (s : List Product) (c : Product) :
    (overwrite_first s c).map (fun r => r.product_name) =
      s.map (fun r => r.product_name) := by
  induction s with
  | nil => rfl
  | cons a t ih =>
    by_cases h : a.product_name == c.product_name
    · simp [overwrite_first, h]
    · simp [overwrite_first, h, ih]

theorem save_product_names_nodup (store : List Product) (c : Product)
    (h : (store.map (fun r => r.product_name)).Nodup) :
    (((save_product store c).1).map (fun r => r.product_name)).Nodup := by
  by_cases hany : store.any (fun r => r.product_name == c.product_name)
  · rw [save_product, if_pos hany, update_latest]
    cases hfind : store.find? (fun r => r.product_name == c.product_name) with
    | none => simpa using h
    | some ex =>
      by_cases hd : ex.date_updated.lt c.date_updated
      · simpa [hd, overwrite_first_names] using h
      · simpa [hd] using h
  · rw [save_product, if_neg hany]
    have hnotin : c.product_name ∉ store.map (fun r => r.product_name) := by
      intro hmem
      obtain ⟨r, hr, hname⟩ := List.mem_map.mp hmem
      exact hany (List.any_eq_true.mpr ⟨r, hr, by simpa using hname⟩)
    simp only [List.map_append, List.map_cons, List.map_nil]
    rw [List.nodup_append]
    refine ⟨h, List.nodup_singleton _, ?_⟩
    intro a ha hb
    rw [List.mem_singleton] at hb
    subst hb
    exact hnotin ha

/-- Claim C2: after any sequence of reconcile submissions (batch rows or
interactive adds) applied to a store with pairwise-distinct names, the store
still has at most one row per name; duplicate-name submissions never create
a second persistent row. -/
theorem reconcile_unique_names (init : List Product) (cs : List Product)
    (h : (init.map (fun r => r.product_name)).Nodup) :
    ((save_csv init cs).map (fun r => r.product_name)).Nodup := by
  induction cs generalizing init with
  | nil => exact h
  | cons a t ih => exact ih (save_product init a).1 (save_product_names_nodup init a h)

theorem reconcile_unique_names_witness :
    ((save_csv [] [⟨"Widget", 5, 100, ⟨2024, 1, 1⟩⟩, ⟨"Widget", 3, 200, ⟨2024, 2, 1⟩⟩,
        ⟨"Widget", 9, 50, ⟨2024, 1, 15⟩⟩]).map (fun r => r.product_name)).Nodup :=
  reconcile_unique_names [] _ (by simp)

/-- Claim C5: reconciling the same candidate twice into a store that did not
previously contain its name yields `inserted` then `skipped`, and the second
call leaves the store byte-for-byte as the first call left it. -/
theorem reconcile_idempotent (store : List Product) (c : Product)
    (h : ∀ r ∈ store, r.product_name ≠ c.product_name) :
    save_product store c = (store ++ [c], SaveResult.inserted)
    ∧ save_product (store ++ [c]) c = (store ++ [c], SaveResult.skipped) := by
  refine ⟨save_product_insert store c h, ?_⟩
  have := save_product_found store c [] c h rfl
  rwa [PyDate.lt_irrefl, if_neg (by simp)] at this

theorem reconcile_idempotent_witness :
    save_product [⟨"Bolt", 2, 75, ⟨2023, 12, 31⟩⟩] ⟨"Widget", 5, 100, ⟨2024, 1, 1⟩⟩ =
      ([⟨"Bolt", 2, 75, ⟨2023, 12, 31⟩⟩, ⟨"Widget", 5, 100, ⟨2024, 1, 1⟩⟩],
        SaveResult.inserted)
    ∧ save_product [⟨"Bolt", 2, 75, ⟨2023, 12, 31⟩⟩, ⟨"Widget", 5, 100, ⟨2024, 1, 1⟩⟩]
        ⟨"Widget", 5, 100, ⟨2024, 1, 1⟩⟩ =
      ([⟨"Bolt", 2, 75, ⟨2023, 12, 31⟩⟩, ⟨"Widget", 5, 100, ⟨2024, 1, 1⟩⟩],
        SaveResult.skipped) :=
  reconcile_idempotent [⟨"Bolt", 2, 75, ⟨2023, 12, 31⟩⟩] ⟨"Widget", 5, 100, ⟨2024, 1, 1⟩⟩
    (by decide)

/-- Claim C6: for candidates `a`, `b` with the same name and `a` strictly
older, submitting `a` then `b` or `b` then `a` to a store not containing
that name leaves the same final store, holding `b`'s quantity, price and
date. -/
theorem reconcile_order_independent (store : List Product) (a b : Product)
    (hname : a.product_name = b.product_name)
    (habs : ∀ r ∈ store, r.product_name ≠ b.product_name)
    (hdate : a.date_updated.lt b.date_updated = true) :
    save_csv store [a, b] = store ++ [b] ∧ save_csv store [b, a] = store ++ [b] := by
  have habs' : ∀ r ∈ store, r.product_name ≠ a.product_name := by
    intro r hr
    rw [hname]
    exact habs r hr
  constructor
  · show (save_product (save_product store a).1 b).1 = store ++ [b]
    rw [save_product_insert store a habs']
    show (save_product (store ++ [a]) b).1 = store ++ [b]
    rw [save_product_found store a [] b habs hname, if_pos hdate]
    show store ++ [{ a with product_quantity := b.product_quantity,
                            product_price := b.product_price,
                            date_updated := b.date_updated }] = store ++ [b]
    have : { a with product_quantity := b.product_quantity,
                    product_price := b.product_price,
                    date_updated := b.date_updated } = b := by
      cases a
      cases b
      simp_all
    rw [this]
  · show (save_product (save_product store b).1 a).1 = store ++ [b]
    rw [save_product_insert store b habs]
    show (save_product (store ++ [b]) a).1 = store ++ [b]
    have hba : b.date_updated.lt a.date_updated = false := PyDate.lt_asymm hdate
    rw [save_product_found store b [] a (fun r hr => hname ▸ habs r hr) hname.symm, hba]
    simp

theorem reconcile_order_independent_witness :
    save_csv [] [⟨"Widget", 5, 100, ⟨2024, 1, 1⟩⟩, ⟨"Widget", 3, 200, ⟨2024, 2, 1⟩⟩] =
      [⟨"Widget", 3, 200, ⟨2024, 2, 1⟩⟩]
    ∧ save_csv [] [⟨"Widget", 3, 200, ⟨2024, 2, 1⟩⟩, ⟨"Widget", 5, 100, ⟨2024, 1, 1⟩⟩] =
      [⟨"Widget", 3, 200, ⟨2024, 2, 1⟩⟩] :=
  reconcile_order_independent [] ⟨"Widget", 5, 100, ⟨2024, 1, 1⟩⟩
    ⟨"Widget", 3, 200, ⟨2024, 2, 1⟩⟩ rfl (by simp) (by decide)

theorem rneNat_spec (num den : Nat) (hden : 0 < den) :
    |(rneNat num den : ℚ) - (num : ℚ) / den| ≤ 1 / 2 := by
  have hdenQ : (0 : ℚ) < (den : ℚ) := by exact_mod_cast hden
  have hdm := Nat.div_add_mod num den
  have hmod : num % den < den := Nat.mod_lt _ hden
  rw [rneNat]
  set f := num / den with hf
  set r := num % den with hr
  have hcast : (num : ℚ) = (den : ℚ) * (f : ℚ) + (r : ℚ) := by exact_mod_cast hdm.symm
  have hq : (num : ℚ) / (den : ℚ) = (f : ℚ) + (r : ℚ) / (den : ℚ) := by
    rw [hcast]
    field_simp
    ring
  have hr0 : (0 : ℚ) ≤ (r : ℚ) / (den : ℚ) := by positivity
  have hrlt : (r : ℚ) / (den : ℚ) < 1 := by
    rw [div_lt_one hdenQ]
    exact_mod_cast hmod
  by_cases h1 : 2 * r < den
  · have h1Q : (r : ℚ) / (den : ℚ) < 1 / 2 := by
      rw [div_lt_div_iff₀ hdenQ (by norm_num : (0 : ℚ) < 2)]
      have hn : r * 2 < 1 * den := by omega
      exact_mod_cast hn
    rw [if_pos h1, hq, abs_le]
    push_cast
    constructor <;> linarith
  · rw [if_neg h1]
    have h1Q : 1 / 2 ≤ (r : ℚ) / (den : ℚ) := by
      rw [div_le_div_iff₀ (by norm_num : (0 : ℚ) < 2) hdenQ]
      have hn : 1 * den ≤ r * 2 := by omega
      exact_mod_cast hn
    by_cases h2 : den < 2 * r
    · rw [if_pos h2, hq, abs_le]
      push_cast
      constructor <;> linarith
    · rw [if_neg h2]
      have heq : (r : ℚ) / (den : ℚ) = 1 / 2 := by
        rw [div_eq_div_iff hdenQ.ne' (by norm_num : (2 : ℚ) ≠ 0)]
        have hn : r * 2 = 1 * den := by omega
        exact_mod_cast hn
      by_cases h3 : f % 2 = 0
      · rw [if_pos h3, hq, abs_le]
        push_cast
        constructor <;> linarith
      · rw [if_neg h3, hq, abs_le]
        push_cast
        constructor <;> linarith

theorem logFuel_bounds (b : Nat) (hb : 2 ≤ b) (f : Nat) :
    ∀ n, 1 ≤ n → n < b ^ f →
      b ^ logFuel b f n ≤ n ∧ n < b ^ (logFuel b f n + 1) := by
  induction f with
  | zero =>
    intro n h1 hlt
    simp only [pow_zero] at hlt
    omega
  | succ f ih =>
    intro n h1 hlt
    by_cases hnb : n < b
    · rw [logFuel, if_pos hnb]
      exact ⟨by simpa using h1, by simpa using hnb⟩
    · push_neg at hnb
      have hbpos : 0 < b := by omega
      have h1' : 1 ≤ n / b := (Nat.one_le_div_iff hbpos).mpr hnb
      have hlt' : n / b < b ^ f := by
        rw [Nat.div_lt_iff_lt_mul hbpos]
        calc n < b ^ (f + 1) := hlt
          _ = b ^ f * b := by ring
      obtain ⟨ihl, ihr⟩ := ih (n / b) h1' hlt'
      rw [logFuel, if_neg (by omega)]
      constructor
      · calc b ^ (logFuel b f (n / b) + 1) = b ^ logFuel b f (n / b) * b := by ring
          _ ≤ n / b * b := Nat.mul_le_mul_right b ihl
          _ ≤ n := Nat.div_mul_le_self n b
      · have hdm := Nat.div_add_mod n b
        have hmod : n % b < b := Nat.mod_lt _ hbpos
        have hstep : n < (n / b + 1) * b := by
          have : (n / b + 1) * b = b * (n / b) + b := by ring
          omega
        calc n < (n / b + 1) * b := hstep
          _ ≤ b ^ (logFuel b f (n / b) + 1) * b := Nat.mul_le_mul_right b (by omega)
          _ = b ^ (logFuel b f (n / b) + 1 + 1) := by ring

theorem clogFuel_one (b : Nat) : ∀ f, clogFuel b f 1 = 0 := by
  intro f
  cases f <;> simp [clogFuel]

theorem clogFuel_bounds (b : Nat) (hb : 2 ≤ b) (f : Nat) :
    ∀ n, 2 ≤ n → n ≤ b ^ f →
      n ≤ b ^ clogFuel b f n ∧ b ^ (clogFuel b f n - 1) < n := by
  induction f with
  | zero =>
    intro n h2 hle
    simp only [pow_zero] at hle
    omega
  | succ f ih =>
    intro n h2 hle
    have hbpos : 0 < b := by omega
    rw [clogFuel, if_neg (by omega)]
    have hdm := Nat.div_add_mod (n + b - 1) b
    have hmod : (n + b - 1) % b < b := Nat.mod_lt _ hbpos
    have hup : n ≤ b * ((n + b - 1) / b) := by omega
    have hdown : b * ((n + b - 1) / b) < n + b := by omega
    by_cases hm1 : (n + b - 1) / b ≤ 1
    · have hm1' : (n + b - 1) / b = 1 := by
        have h1 : 1 ≤ (n + b - 1) / b := (Nat.one_le_div_iff hbpos).mpr (by omega)
        omega
      rw [hm1', clogFuel_one]
      have hnb : n ≤ b := by
        have := hup
        rw [hm1'] at this
        omega
      refine ⟨by simpa using hnb, ?_⟩
      simpa using h2
    · push_neg at hm1
      have hmle : (n + b - 1) / b ≤ b ^ f := by
        have h1 : b * ((n + b - 1) / b) < b * (b ^ f + 1) := by
          calc b * ((n + b - 1) / b) < n + b := hdown
            _ ≤ b ^ (f + 1) + b := by omega
            _ = b * (b ^ f + 1) := by ring
        have := Nat.lt_of_mul_lt_mul_left h1
        omega
      obtain ⟨ih1, ih2⟩ := ih ((n + b - 1) / b) hm1 hmle
      have hk1 : 1 ≤ clogFuel b f ((n + b - 1) / b) := by
        by_contra h
        push_neg at h
        have hk0 : clogFuel b f ((n + b - 1) / b) = 0 := by omega
        rw [hk0, pow_zero] at ih1
        omega
      constructor
      · calc n ≤ b * ((n + b - 1) / b) := hup
          _ ≤ b * b ^ clogFuel b f ((n + b - 1) / b) := Nat.mul_le_mul_left b ih1
          _ = b ^ (clogFuel b f ((n + b - 1) / b) + 1) := by ring
      · have hsub : clogFuel b f ((n + b - 1) / b) + 1 - 1 = clogFuel b f ((n + b - 1) / b) := by
          omega
        rw [hsub]
        have hm1' : 1 ≤ (n + b - 1) / b := by omega
        have hmul : b * ((n + b - 1) / b - 1) + b = b * ((n + b - 1) / b) := by
          calc b * ((n + b - 1) / b - 1) + b
              = b * ((n + b - 1) / b - 1) + b * 1 := by rw [Nat.mul_one]
            _ = b * (((n + b - 1) / b - 1) + 1) := (Nat.mul_add b _ 1).symm
            _ = b * ((n + b - 1) / b) := by rw [Nat.sub_add_cancel hm1']
        have hlt2 : b * ((n + b - 1) / b - 1) < n := by omega
        calc b ^ clogFuel b f ((n + b - 1) / b)
            = b * b ^ (clogFuel b f ((n + b - 1) / b) - 1) := by
              rw [← pow_succ']
              congr 1
              omega
          _ ≤ b * ((n + b - 1) / b - 1) := Nat.mul_le_mul_left b (by omega)
          _ < n := hlt2

theorem nat_div_cast_le (p q : Nat) (hq : 0 < q) : ((p / q : Nat) : ℚ) ≤ (p : ℚ) / q := by
  have hqQ : (0 : ℚ) < (q : ℚ) := by exact_mod_cast hq
  rw [le_div_iff₀ hqQ]
  exact_mod_cast Nat.div_mul_le_self p q

theorem nat_div_cast_lt (p q : Nat) (hq : 0 < q) : (p : ℚ) / q < ((p / q : Nat) : ℚ) + 1 := by
  have hqQ : (0 : ℚ) < (q : ℚ) := by exact_mod_cast hq
  rw [div_lt_iff₀ hqQ]
  have hdm := Nat.div_add_mod p q
  have hmod : p % q < q := Nat.mod_lt _ hq
  have hn : p < (p / q + 1) * q := by
    have hexp : (p / q + 1) * q = q * (p / q) + q := by ring
    omega
  calc (p : ℚ) < ((p / q + 1) * q : Nat) := by exact_mod_cast hn
    _ = (((p / q : Nat) : ℚ) + 1) * q := by push_cast; ring

theorem ilogPair_bounds (b p q : Nat) (hb : 2 ≤ b) (hp : 1 ≤ p) (hq : 1 ≤ q)
    (hpB : p ≤ b ^ 4000) (hqB : q ≤ b ^ 4000) :
    (b : ℚ) ^ ilogPair b p q ≤ (p : ℚ) / q ∧ (p : ℚ) / q < (b : ℚ) ^ (ilogPair b p q + 1) := by
  have hq0 : (0 : ℚ) < (q : ℚ) := by exact_mod_cast hq
  have hp0 : (0 : ℚ) < (p : ℚ) := by exact_mod_cast hp
  have hpow : b ^ 4000 < b ^ 4096 := Nat.pow_lt_pow_right (by omega) (by omega)
  rw [ilogPair]
  by_cases hqp : q ≤ p
  · rw [if_pos hqp]
    have h1 : 1 ≤ p / q := (Nat.one_le_div_iff (by omega)).mpr hqp
    have hlt : p / q < b ^ 4096 := by
      have := Nat.div_le_self p q
      omega
    obtain ⟨hl, hr⟩ := logFuel_bounds b hb 4096 (p / q) h1 hlt
    constructor
    · calc (b : ℚ) ^ ((logFuel b 4096 (p / q) : Nat) : ℤ)
          = ((b ^ logFuel b 4096 (p / q) : Nat) : ℚ) := by
            rw [zpow_natCast]
            push_cast
            ring
        _ ≤ ((p / q : Nat) : ℚ) := by exact_mod_cast hl
        _ ≤ (p : ℚ) / q := nat_div_cast_le p q (by omega)
    · calc (p : ℚ) / q < ((p / q : Nat) : ℚ) + 1 := nat_div_cast_lt p q (by omega)
        _ ≤ ((b ^ (logFuel b 4096 (p / q) + 1) : Nat) : ℚ) := by
            have : p / q + 1 ≤ b ^ (logFuel b 4096 (p / q) + 1) := hr
            push_cast
            exact_mod_cast this
        _ = (b : ℚ) ^ (((logFuel b 4096 (p / q) : Nat) : ℤ) + 1) := by
            rw [show ((logFuel b 4096 (p / q) : Nat) : ℤ) + 1
              = ((logFuel b 4096 (p / q) + 1 : Nat) : ℤ) by push_cast; ring, zpow_natCast]
            push_cast
            ring
  · rw [if_neg hqp]
    push_neg at hqp
    have hppos : 0 < p := by omega
    have hdm := Nat.div_add_mod (q + p - 1) p
    have hmod : (q + p - 1) % p < p := Nat.mod_lt _ hppos
    have hup : q ≤ p * ((q + p - 1) / p) := by omega
    have hdown : p * ((q + p - 1) / p) < q + p := by omega
    have hc2 : 2 ≤ (q + p - 1) / p := by
      by_contra h
      push_neg at h
      have hle1 : p * ((q + p - 1) / p) ≤ p * 1 := Nat.mul_le_mul_left p (by omega)
      omega
    have hcB : (q + p - 1) / p ≤ b ^ 4096 := by
      have hcq : (q + p - 1) / p ≤ q := by
        have h1 : p * ((q + p - 1) / p) < p * (q + 1) := by
          have hq1 : q ≤ p * q := Nat.le_mul_of_pos_left q hppos
          have hexp : p * (q + 1) = p * q + p := by ring
          omega
        have := Nat.lt_of_mul_lt_mul_left h1
        omega
      omega
    obtain ⟨h1, h2⟩ := clogFuel_bounds b hb 4096 ((q + p - 1) / p) hc2 hcB
    have hk1 : 1 ≤ clogFuel b 4096 ((q + p - 1) / p) := by
      by_contra h
      push_neg at h
      have hk0 : clogFuel b 4096 ((q + p - 1) / p) = 0 := by omega
      rw [hk0, pow_zero] at h1
      omega
    set k := clogFuel b 4096 ((q + p - 1) / p) with hk
    have hbkQ : (0 : ℚ) < (b : ℚ) ^ (k : Nat) := by
      apply pow_pos
      have : (0 : ℚ) < (b : ℚ) := by exact_mod_cast (by omega : 0 < b)
      exact this
    constructor
    · rw [zpow_neg, zpow_natCast, inv_eq_one_div, div_le_div_iff₀ hbkQ hq0]
      have hn : q ≤ p * b ^ k := by
        calc q ≤ p * ((q + p - 1) / p) := hup
          _ ≤ p * b ^ k := Nat.mul_le_mul_left p h1
      calc (1 : ℚ) * (q : ℚ) = (q : ℚ) := by ring
        _ ≤ ((p * b ^ k : Nat) : ℚ) := by exact_mod_cast hn
        _ = (p : ℚ) * (b : ℚ) ^ (k : Nat) := by push_cast; ring
    · rw [show -((k : Nat) : ℤ) + 1 = -(((k - 1 : Nat) : Nat) : ℤ) by omega, zpow_neg,
        zpow_natCast]
      have hbk1Q : (0 : ℚ) < (b : ℚ) ^ ((k - 1 : Nat) : Nat) := by
        apply pow_pos
        exact_mod_cast (by omega : 0 < b)
      rw [inv_eq_one_div, div_lt_div_iff₀ hq0 hbk1Q]
      have hkey : p * b ^ (k - 1) < q := by
        have hpm1 : b ^ (k - 1) + 1 ≤ (q + p - 1) / p := by omega
        have hmul : p * ((q + p - 1) / p - 1) + p = p * ((q + p - 1) / p) := by
          calc p * ((q + p - 1) / p - 1) + p
              = p * ((q + p - 1) / p - 1) + p * 1 := by rw [Nat.mul_one]
            _ = p * (((q + p - 1) / p - 1) + 1) := (Nat.mul_add p _ 1).symm
            _ = p * ((q + p - 1) / p) := by rw [Nat.sub_add_cancel (by omega)]
        have hlt2 : p * ((q + p - 1) / p - 1) < q := by omega
        calc p * b ^ (k - 1) ≤ p * ((q + p - 1) / p - 1) := Nat.mul_le_mul_left p (by omega)
          _ < q := hlt2
      calc (p : ℚ) * (b : ℚ) ^ ((k - 1 : Nat) : Nat)
          = ((p * b ^ (k - 1) : Nat) : ℚ) := by push_cast; ring
        _ < (q : ℚ) := by exact_mod_cast hkey
        _ = 1 * (q : ℚ) := by ring

theorem roundPosRat_spec (p q : Nat) (hp : 1 ≤ p) (hq : 1 ≤ q)
    (hpB : p ≤ 2 ^ 4000) (hqB : q ≤ 2 ^ 4000) :
    0 ≤ (roundPosRat p q).m ∧ (roundPosRat p q).m ≤ 2 ^ 53 ∧
    (roundPosRat p q).e = ilogPair 2 p q - 52 ∧
    |(roundPosRat p q).val - (p : ℚ) / q| ≤ ((p : ℚ) / q) / 2 ^ 53 := by
  have hq0 : (0 : ℚ) < (q : ℚ) := by exact_mod_cast hq
  have hp0 : (0 : ℚ) < (p : ℚ) := by exact_mod_cast hp
  have hrepr : roundPosRat p q =
      ⟨(rneNat (p * 2 ^ (-(ilogPair 2 p q - 52)).toNat)
          (q * 2 ^ (ilogPair 2 p q - 52).toNat) : Int), ilogPair 2 p q - 52⟩ := by
    rw [roundPosRat, if_neg (by omega)]
  set L := ilogPair 2 p q with hL
  set E : Int := L - 52 with hE
  set N := p * 2 ^ (-E).toNat with hN
  set D := q * 2 ^ E.toNat with hD
  have hD0 : 0 < D := Nat.mul_pos (by omega) (Nat.pos_pow_of_pos _ (by omega))
  have hval : (roundPosRat p q).val = (rneNat N D : ℚ) * (2 : ℚ) ^ E := by
    rw [hrepr, Dbl.val]
    push_cast
    ring
  have htn : (((-E).toNat : Int)) - ((E.toNat : Int)) = -E := by omega
  have key : (N : ℚ) / D = ((p : ℚ) / q) * (2 : ℚ) ^ (-E) := by
    calc (N : ℚ) / D = ((p : ℚ) * (2 : ℚ) ^ ((-E).toNat : Nat)) /
          ((q : ℚ) * (2 : ℚ) ^ (E.toNat : Nat)) := by rw [hN, hD]; push_cast; ring
      _ = ((p : ℚ) / q) * ((2 : ℚ) ^ ((-E).toNat : Nat) / (2 : ℚ) ^ (E.toNat : Nat)) := by
          ring
      _ = ((p : ℚ) / q) * (2 : ℚ) ^ (-E) := by
          rw [← zpow_natCast (2 : ℚ) (-E).toNat, ← zpow_natCast (2 : ℚ) E.toNat,
            ← zpow_sub₀ (by norm_num : (2 : ℚ) ≠ 0), htn]
  have h2E : (0 : ℚ) < (2 : ℚ) ^ E := zpow_pos (by norm_num) E
  have h2negE : (0 : ℚ) < (2 : ℚ) ^ (-E) := zpow_pos (by norm_num) (-E)
  have pq_eq : ((N : ℚ) / D) * (2 : ℚ) ^ E = (p : ℚ) / q := by
    rw [key, mul_assoc, ← zpow_add₀ (by norm_num : (2 : ℚ) ≠ 0)]
    simp
  obtain ⟨hlo, hhi⟩ := ilogPair_bounds 2 p q (by omega) hp hq hpB hqB
  rw [← hL] at hlo hhi
  norm_num at hlo hhi
  have hrne := rneNat_spec N D hD0
  refine ⟨?_, ?_, ?_, ?_⟩
  · rw [hrepr]
    exact Int.natCast_nonneg _
  · rw [hrepr]
    show ((rneNat N D : Nat) : Int) ≤ 2 ^ 53
    have hND : (N : ℚ) / D < (2 : ℚ) ^ (53 : Nat) := by
      have h1 : (N : ℚ) / D < (2 : ℚ) ^ (L + 1) * (2 : ℚ) ^ (-E) := by
        rw [key]
        exact mul_lt_mul_of_pos_right hhi h2negE
      calc (N : ℚ) / D < (2 : ℚ) ^ (L + 1) * (2 : ℚ) ^ (-E) := h1
        _ = (2 : ℚ) ^ (L + 1 + -E) := (zpow_add₀ (by norm_num : (2 : ℚ) ≠ 0) _ _).symm
        _ = (2 : ℚ) ^ ((53 : Nat) : Int) := by rw [show L + 1 + -E = ((53 : Nat) : Int) by omega]
        _ = (2 : ℚ) ^ (53 : Nat) := zpow_natCast _ _
    have hmQ : ((rneNat N D : Nat) : ℚ) ≤ (N : ℚ) / D + 1 / 2 := by
      have := (abs_le.mp hrne).2
      linarith
    by_contra hcon
    push_neg at hcon
    have hge : 2 ^ 53 + 1 ≤ (rneNat N D : Nat) := by exact_mod_cast hcon
    have hgeQ : ((2 : ℚ) ^ (53 : Nat) + 1) ≤ ((rneNat N D : Nat) : ℚ) := by
      exact_mod_cast hge
    linarith
  · rw [hrepr]
  · have herr : |(roundPosRat p q).val - (p : ℚ) / q| ≤ 1 / 2 * (2 : ℚ) ^ E := by
      calc |(roundPosRat p q).val - (p : ℚ) / q|
          = |(rneNat N D : ℚ) * (2 : ℚ) ^ E - ((N : ℚ) / D) * (2 : ℚ) ^ E| := by
            rw [hval, pq_eq]
        _ = |(rneNat N D : ℚ) - (N : ℚ) / D| * (2 : ℚ) ^ E := by
            rw [← sub_mul, abs_mul, abs_of_pos h2E]
        _ ≤ 1 / 2 * (2 : ℚ) ^ E := mul_le_mul_of_nonneg_right hrne h2E.le
    have hcol : (1 / 2 : ℚ) * (2 : ℚ) ^ E = (2 : ℚ) ^ L * ((2 : ℚ) ^ (53 : Nat))⁻¹ := by
      have h53 : (2 : ℚ) ^ (53 : Int) = (2 : ℚ) ^ (52 : Int) * 2 := by
        rw [show (53 : Int) = 52 + 1 by norm_num, zpow_add_one₀ (by norm_num : (2 : ℚ) ≠ 0)]
      have h52ne : ((2 : ℚ) ^ (52 : Int)) ≠ 0 := zpow_ne_zero _ (by norm_num)
      calc (1 / 2 : ℚ) * (2 : ℚ) ^ E = 1 / 2 * ((2 : ℚ) ^ L / (2 : ℚ) ^ (52 : Int)) := by
            rw [hE, zpow_sub₀ (by norm_num : (2 : ℚ) ≠ 0)]
        _ = (2 : ℚ) ^ L * ((2 : ℚ) ^ (53 : Int))⁻¹ := by
            rw [h53, mul_inv, div_eq_mul_inv]
            ring
        _ = (2 : ℚ) ^ L * ((2 : ℚ) ^ (53 : Nat))⁻¹ := by
            rw [← zpow_natCast (2 : ℚ) 53]
            norm_num
    calc |(roundPosRat p q).val - (p : ℚ) / q| ≤ 1 / 2 * (2 : ℚ) ^ E := herr
      _ = (2 : ℚ) ^ L * ((2 : ℚ) ^ (53 : Nat))⁻¹ := hcol
      _ ≤ ((p : ℚ) / q) * ((2 : ℚ) ^ (53 : Nat))⁻¹ := by
          apply mul_le_mul_of_nonneg_right hlo
          positivity
      _ = ((p : ℚ) / q) / 2 ^ 53 := by ring

theorem roundScaledN_spec (p : Nat) (e : Int) (hp : 1 ≤ p) (hpB : p ≤ 2 ^ 200)
    (heB : e.natAbs ≤ 200) :
    0 ≤ (roundScaledN p e).m ∧
    |(roundScaledN p e).val - (p : ℚ) * (2 : ℚ) ^ e| ≤ ((p : ℚ) * (2 : ℚ) ^ e) / 2 ^ 53 := by
  rcases le_or_lt 0 e with he | he
  · rw [roundScaledN, if_pos he]
    have harg : p * 2 ^ e.toNat ≤ 2 ^ 4000 := by
      have h1 : 2 ^ e.toNat ≤ 2 ^ 200 := Nat.pow_le_pow_right (by omega) (by omega)
      calc p * 2 ^ e.toNat ≤ 2 ^ 200 * 2 ^ 200 := Nat.mul_le_mul hpB h1
        _ = 2 ^ 400 := by rw [← pow_add]
        _ ≤ 2 ^ 4000 := Nat.pow_le_pow_right (by omega) (by omega)
    have hppos : 0 < p * 2 ^ e.toNat := Nat.mul_pos (by omega) (Nat.pos_pow_of_pos _ (by omega))
    obtain ⟨hm0, _, _, herr⟩ := roundPosRat_spec (p * 2 ^ e.toNat) 1 (by omega) (by omega)
      harg (Nat.one_le_pow _ _ (by omega))
    have hv : ((p * 2 ^ e.toNat : Nat) : ℚ) / ((1 : Nat) : ℚ) = (p : ℚ) * (2 : ℚ) ^ e := by
      push_cast
      rw [div_one]
      congr 1
      rw [← zpow_natCast (2 : ℚ) e.toNat, Int.toNat_of_nonneg he]
    exact ⟨hm0, by rwa [hv] at herr⟩
  · rw [roundScaledN, if_neg (by omega)]
    have hq1 : 1 ≤ 2 ^ (-e).toNat := Nat.one_le_pow _ _ (by omega)
    have hqB : 2 ^ (-e).toNat ≤ 2 ^ 4000 := Nat.pow_le_pow_right (by omega) (by omega)
    obtain ⟨hm0, _, _, herr⟩ := roundPosRat_spec p (2 ^ (-e).toNat) hp hq1
      (le_trans hpB (Nat.pow_le_pow_right (by omega) (by omega))) hqB
    have hv : (p : ℚ) / ((2 ^ (-e).toNat : Nat) : ℚ) = (p : ℚ) * (2 : ℚ) ^ e := by
      push_cast
      rw [div_eq_mul_inv]
      congr 1
      rw [← zpow_natCast (2 : ℚ) (-e).toNat, ← zpow_neg,
        show -(((-e).toNat : Int)) = e by omega]
    exact ⟨hm0, by rwa [hv] at herr⟩

theorem floor_nat_div (a b : Nat) (hb : 0 < b) :
    ⌊(a : ℚ) / (b : ℚ)⌋ = ((a / b : Nat) : Int) := by
  rw [Int.floor_eq_iff]
  constructor
  · push_cast
    exact nat_div_cast_le a b hb
  · push_cast
    exact nat_div_cast_lt a b hb

theorem dblTrunc_eq_floor (d : Dbl) (hm : 0 ≤ d.m) : dblTrunc d = ⌊d.val⌋ := by
  rw [dblTrunc, if_neg (by omega), dblTruncNat]
  rcases le_or_lt 0 d.e with he | he
  · rw [if_pos he, Dbl.val]
    have hmQ : ((d.m.toNat : Nat) : ℚ) = (d.m : ℚ) := by exact_mod_cast Int.toNat_of_nonneg hm
    have hcast : (d.m : ℚ) * (2 : ℚ) ^ d.e = (((d.m.toNat * 2 ^ d.e.toNat : Nat) : Int) : ℚ) := by
      push_cast
      rw [← zpow_natCast (2 : ℚ) d.e.toNat, Int.toNat_of_nonneg he, hmQ]
    rw [hcast, Int.floor_intCast]
  · rw [if_neg (by omega), Dbl.val]
    have hmQ : ((d.m.toNat : Nat) : ℚ) = (d.m : ℚ) := by exact_mod_cast Int.toNat_of_nonneg hm
    have hval : (d.m : ℚ) * (2 : ℚ) ^ d.e = (d.m.toNat : ℚ) / ((2 ^ (-d.e).toNat : Nat) : ℚ) := by
      push_cast
      rw [hmQ, div_eq_mul_inv]
      congr 1
      rw [← zpow_natCast (2 : ℚ) (-d.e).toNat, ← zpow_neg,
        show -(((-d.e).toNat : Int)) = d.e by omega]
    rw [hval, floor_nat_div _ _ (Nat.pos_pow_of_pos _ (by omega))]

theorem dblOverflows_false_of_val (d : Dbl) (hm : 0 ≤ d.m) (hv : d.val < 2 ^ 1024) :
    dblOverflows d = false := by
  have hmQ : ((d.m.natAbs : Nat) : ℚ) = (d.m : ℚ) := by
    have h1 : (d.m.natAbs : Int) = d.m := Int.natAbs_of_nonneg hm
    calc ((d.m.natAbs : Nat) : ℚ) = (((d.m.natAbs : Int)) : ℚ) := (Int.cast_natCast _).symm
      _ = (d.m : ℚ) := by rw [h1]
  rw [dblOverflows]
  by_cases he : 0 ≤ d.e
  · rw [if_pos he, decide_eq_false_iff_not, not_le]
    by_contra hcon
    push_neg at hcon
    have hvv : ((d.m.natAbs * 2 ^ d.e.toNat : Nat) : ℚ) = d.val := by
      rw [Dbl.val]
      push_cast [hmQ]
      rw [← zpow_natCast (2 : ℚ) d.e.toNat, Int.toNat_of_nonneg he]
    have hvq : (2 : ℚ) ^ (1024 : ℕ) ≤ d.val := by
      rw [← hvv]
      exact_mod_cast hcon
    linarith
  · rw [if_neg he, decide_eq_false_iff_not, not_le]
    by_contra hcon
    push_neg at hcon
    have hpow : (0 : ℚ) < ((2 ^ (-d.e).toNat : Nat) : ℚ) := by positivity
    have hexp : d.e + (((-d.e).toNat : ℕ) : ℤ) = 0 := by omega
    have hvv2 : d.val * ((2 ^ (-d.e).toNat : Nat) : ℚ) = ((d.m.natAbs : Nat) : ℚ) := by
      rw [Dbl.val]
      push_cast [hmQ]
      rw [mul_assoc, ← zpow_natCast (2 : ℚ) (-d.e).toNat,
        ← zpow_add₀ (by norm_num : (2 : ℚ) ≠ 0), hexp, zpow_zero, mul_one]
    have hge : (2 : ℚ) ^ (1024 : ℕ) * ((2 ^ (-d.e).toNat : Nat) : ℚ) ≤
        d.val * ((2 ^ (-d.e).toNat : Nat) : ℚ) := by
      rw [hvv2]
      exact_mod_cast hcon
    have hfin : (2 : ℚ) ^ (1024 : ℕ) ≤ d.val := le_of_mul_le_mul_right hge hpow
    linarith

theorem mkPyFloat_finite (d : Dbl) (h : dblOverflows d = false) :
    mkPyFloat d = PyFloat.finite d := by
  rw [mkPyFloat, h]
  simp

theorem mkPyFloat_finite_inv (d x : Dbl) (h : mkPyFloat d = PyFloat.finite x) : x = d := by
  rw [mkPyFloat] at h
  by_cases hov : dblOverflows d = true
  · rw [if_pos hov] at h
    cases h
  · rw [if_neg hov] at h
    exact (PyFloat.finite.inj h).symm

theorem pyMulNat_finite (d : Dbl) (n : Nat) :
    pyMulNat (PyFloat.finite d) n = mkPyFloat (dblMulNat d n) := rfl

theorem trunc_mul100 (a b N : Nat) (ha : 1 ≤ a) (hb : 1 ≤ b)
    (haB : a ≤ 2 ^ 100) (hbB : b ≤ 2 ^ 100) (hN1 : 1 ≤ N) (hNB : N ≤ 2 ^ 45)
    (hcross : 100 * a = N * b) :
    dblOverflows (roundRat (a : Int) b) = false ∧
    dblOverflows (dblMulNat (roundRat (a : Int) b) 100) = false ∧
    (dblTrunc (dblMulNat (roundRat (a : Int) b) 100) = (N : Int) ∨
     dblTrunc (dblMulNat (roundRat (a : Int) b) 100) = (N : Int) - 1) := by
  have hb0 : (0 : ℚ) < (b : ℚ) := by exact_mod_cast hb
  have ha0 : (0 : ℚ) < (a : ℚ) := by exact_mod_cast ha
  have hq : (a : ℚ) / b = (N : ℚ) / 100 := by
    rw [div_eq_div_iff hb0.ne' (by norm_num : (100 : ℚ) ≠ 0)]
    have hnat : a * 100 = N * b := by omega
    exact_mod_cast hnat
  have hrr : roundRat (a : Int) b = roundPosRat a b := by
    rw [roundRat, if_neg (by omega), Int.toNat_natCast]
  obtain ⟨hm0, hm53, hEe, herr⟩ := roundPosRat_spec a b ha hb
    (le_trans haB (Nat.pow_le_pow_right (by omega) (by omega)))
    (le_trans hbB (Nat.pow_le_pow_right (by omega) (by omega)))
  obtain ⟨hlo, hhi⟩ := ilogPair_bounds 2 a b (by omega) ha hb
    (le_trans haB (Nat.pow_le_pow_right (by omega) (by omega)))
    (le_trans hbB (Nat.pow_le_pow_right (by omega) (by omega)))
  norm_num at hlo hhi
  set d1 := roundPosRat a b with hd1
  set L := ilogPair 2 a b with hLdef
  set Q := (a : ℚ) / b with hQdef
  obtain ⟨herrlo, herrhi⟩ := abs_le.mp herr
  have hqpos : (0 : ℚ) < Q := div_pos ha0 hb0
  have hfrac : Q / 2 ^ 53 < Q := by
    apply div_lt_self hqpos
    norm_num
  have hdpos : 0 < d1.val := by linarith
  have hm1 : 1 ≤ d1.m := by
    by_contra hcon
    push_neg at hcon
    have hm00 : d1.m = 0 := by omega
    rw [Dbl.val, hm00] at hdpos
    simp at hdpos
  have hN45 : (N : ℚ) ≤ 2 ^ 45 := by exact_mod_cast hNB
  have hN1Q : (1 : ℚ) ≤ (N : ℚ) := by exact_mod_cast hN1
  have hub : Q ≤ 2 ^ 46 := by
    rw [hq]
    calc (N : ℚ) / 100 ≤ (N : ℚ) := div_le_self (by positivity) (by norm_num)
      _ ≤ 2 ^ 45 := hN45
      _ ≤ 2 ^ 46 := by norm_num
  have hlb : (1 : ℚ) / 100 ≤ Q := by
    rw [hq]
    gcongr
  have hLle : L ≤ 46 := by
    by_contra hcon
    push_neg at hcon
    have h1 : (2 : ℚ) ^ (47 : Int) ≤ (2 : ℚ) ^ L := zpow_le_zpow_right₀ (by norm_num) (by omega)
    have h2 : ((2 : ℚ) ^ (47 : Int)) = (2 : ℚ) ^ (47 : Nat) := by
      rw [← zpow_natCast]
      norm_num
    have h3 : (2 : ℚ) ^ (46 : Nat) < (2 : ℚ) ^ (47 : Nat) := by norm_num
    linarith
  have hLge : -8 ≤ L := by
    by_contra hcon
    push_neg at hcon
    have h1 : (2 : ℚ) ^ (L + 1) ≤ (2 : ℚ) ^ (-7 : Int) := zpow_le_zpow_right₀ (by norm_num) (by omega)
    have h2 : (2 : ℚ) ^ (-7 : Int) = ((2 : ℚ) ^ (7 : Nat))⁻¹ := by
      rw [← zpow_natCast (2 : ℚ) 7, ← zpow_neg]
      norm_num
    have h3 : ((2 : ℚ) ^ (7 : Nat))⁻¹ < 1 / 100 := by norm_num
    have h4 : Q < 1 / 100 := by
      calc Q < (2 : ℚ) ^ (L + 1) := hhi
        _ ≤ (2 : ℚ) ^ (-7 : Int) := h1
        _ = ((2 : ℚ) ^ (7 : Nat))⁻¹ := h2
        _ < 1 / 100 := h3
    linarith
  have hm53' : d1.m.toNat ≤ 2 ^ 53 := by omega
  have hmtoNat : (d1.m.toNat : Int) = d1.m := Int.toNat_of_nonneg hm0
  have hmul : dblMulNat d1 100 = roundScaledN (d1.m.toNat * 100) d1.e := by
    rw [dblMulNat, if_neg (by omega)]
  have hp21 : 1 ≤ d1.m.toNat * 100 := by
    have h1 : 1 ≤ d1.m.toNat := by omega
    omega
  have hp2B : d1.m.toNat * 100 ≤ 2 ^ 200 := by
    have h1 : d1.m.toNat * 100 ≤ 2 ^ 53 * 100 := Nat.mul_le_mul_right _ hm53'
    have h2 : (2 : Nat) ^ 53 * 100 ≤ 2 ^ 200 := by norm_num
    omega
  have heB : d1.e.natAbs ≤ 200 := by
    rw [hEe]
    omega
  obtain ⟨hm0', herr2⟩ := roundScaledN_spec (d1.m.toNat * 100) d1.e hp21 hp2B heB
  set d2 := roundScaledN (d1.m.toNat * 100) d1.e with hd2def
  have htv : ((d1.m.toNat * 100 : Nat) : ℚ) * (2 : ℚ) ^ d1.e = 100 * d1.val := by
    have hmQ : ((d1.m.toNat : Nat) : ℚ) = (d1.m : ℚ) := by exact_mod_cast hmtoNat
    rw [Dbl.val]
    push_cast [hmQ]
    ring
  rw [htv] at herr2
  obtain ⟨h2lo, h2hi⟩ := abs_le.mp herr2
  have hNQ : (N : ℚ) = 100 * Q := by
    rw [hq]
    ring
  have hclose : |d2.val - (N : ℚ)| < 1 / 2 := by
    have hup1 : 100 * d1.val ≤ (N : ℚ) + (N : ℚ) / 2 ^ 53 := by
      have h1 : 100 * d1.val ≤ 100 * Q + 100 * (Q / 2 ^ 53) := by linarith
      have h2 : 100 * (Q / 2 ^ 53) = (100 * Q) / 2 ^ 53 := by ring
      rw [hNQ]
      linarith
    have hdn1 : (N : ℚ) - (N : ℚ) / 2 ^ 53 ≤ 100 * d1.val := by
      have h1 : 100 * Q - 100 * (Q / 2 ^ 53) ≤ 100 * d1.val := by linarith
      have h2 : 100 * (Q / 2 ^ 53) = (100 * Q) / 2 ^ 53 := by ring
      rw [hNQ]
      linarith
    have hNd : (0 : ℚ) < (N : ℚ) := by linarith
    have hNd1 : 0 ≤ (N : ℚ) + (N : ℚ) / 2 ^ 53 := by positivity
    have hval2ub : 100 * d1.val / 2 ^ 53 ≤ ((N : ℚ) + (N : ℚ) / 2 ^ 53) / 2 ^ 53 := by
      gcongr
    have hpow53 : ((2 : ℚ) ^ 45) * 256 = 2 ^ 53 := by norm_num
    have hNbig : (N : ℚ) / 2 ^ 53 ≤ 1 / 256 := by
      rw [div_le_div_iff₀ (by positivity) (by norm_num)]
      linarith
    have hNbig2 : ((N : ℚ) + (N : ℚ) / 2 ^ 53) / 2 ^ 53 ≤ 1 / 128 := by
      rw [div_le_div_iff₀ (by positivity) (by norm_num)]
      have hpow128 : ((2 : ℚ) ^ 45 + 1) * 128 ≤ 2 ^ 53 := by norm_num
      linarith
    rw [abs_lt]
    constructor <;> linarith
  have htr : dblTrunc d2 = ⌊d2.val⌋ := dblTrunc_eq_floor d2 hm0'
  obtain ⟨hcl, hcr⟩ := abs_lt.mp hclose
  have hd1v : d1.val < 2 ^ 1024 := by
    have h1 : d1.val ≤ Q + Q / 2 ^ 53 := by linarith
    have h2 : (2 : ℚ) ^ 46 + 2 ^ 46 < 2 ^ 1024 := by norm_num
    linarith
  have hd2v : d2.val < 2 ^ 1024 := by
    have h2 : (2 : ℚ) ^ 45 + 1 < 2 ^ 1024 := by norm_num
    linarith
  refine ⟨?_, ?_, ?_⟩
  · rw [hrr]
    exact dblOverflows_false_of_val d1 hm0 hd1v
  · rw [hrr, hmul]
    exact dblOverflows_false_of_val d2 hm0' hd2v
  · by_cases hge : (N : ℚ) ≤ d2.val
    · left
      rw [hrr, hmul, htr, Int.floor_eq_iff]
      constructor
      · exact_mod_cast hge
      · push_cast
        linarith
    · right
      push_neg at hge
      rw [hrr, hmul, htr, Int.floor_eq_iff]
      constructor
      · push_cast
        linarith
      · push_cast
        linarith

theorem isDigit_ne_char {c x : Char} (h : c.isDigit = true) (hx : x.isDigit = false) :
    (c == x) = false := by
  rcases Bool.eq_false_or_eq_true (c == x) with ht | hf
  · have hcx : c = x := beq_iff_eq.mp ht
    rw [hcx] at h
    rw [h] at hx
    cases hx
  · exact hf

theorem isDigit_not_ws {c : Char} (h : c.isDigit = true) : c.isWhitespace = false := by
  rcases Bool.eq_false_or_eq_true c.isWhitespace with ht | hf
  · have hws : ((c = ' ' ∨ c = '\t') ∨ c = '\r') ∨ c = '\n' := by
      simpa [Char.isWhitespace] using ht
    rcases hws with ((rfl | rfl) | rfl) | rfl <;> cases h
  · exact hf

theorem takeWhile_append_cons {α : Type} {p : α → Bool} (l1 : List α) (c : α) (l2 : List α)
    (h1 : ∀ x ∈ l1, p x = true) (hc : p c = false) :
    (l1 ++ c :: l2).takeWhile p = l1 := by
  induction l1 with
  | nil => simp [List.takeWhile_cons, hc]
  | cons a t ih =>
    have ha : p a = true := h1 a (by simp)
    simp only [List.cons_append, List.takeWhile_cons, ha]
    rw [ih (fun x hx => h1 x (by simp [hx]))]
    simp

theorem takeWhile_all {α : Type} {p : α → Bool} (l : List α) (h : ∀ x ∈ l, p x = true) :
    l.takeWhile p = l := by
  induction l with
  | nil => rfl
  | cons a t ih =>
    have ha : p a = true := h a (by simp)
    simp only [List.takeWhile_cons, ha]
    rw [ih (fun x hx => h x (by simp [hx]))]
    simp

theorem regexMatchAt_shaped (d1 d2 suf : List Char)
    (hd1 : d1 ≠ []) (hd1d : ∀ x ∈ d1, x.isDigit = true)
    (hd2d : ∀ x ∈ d2, x.isDigit = true)
    (hshape : d2.length = 2 ∨ (d2.length = 1 ∧
      (suf = [] ∨ ∃ s0 ss, suf = s0 :: ss ∧ s0.isDigit = false))) :
    regexMatchAt (d1 ++ '.' :: (d2 ++ suf)) = some (d1 ++ '.' :: d2) := by
  have hdotd : ('.').isDigit = false := by decide
  have htw : (d1 ++ '.' :: (d2 ++ suf)).takeWhile Char.isDigit = d1 :=
    takeWhile_append_cons d1 '.' (d2 ++ suf) hd1d hdotd
  have hdr : (d1 ++ '.' :: (d2 ++ suf)).drop d1.length = '.' :: (d2 ++ suf) :=
    List.drop_left d1 _
  have hnl : ('.' == '\n') = false := by decide
  have ht2 : regexTake2 (d2 ++ suf) = d2 := by
    rcases hshape with h2 | ⟨h1, hsuf⟩
    · match d2, h2 with
      | [a, b], _ =>
        have hA : a.isDigit = true := hd2d a (by simp)
        have hB : b.isDigit = true := hd2d b (by simp)
        simp [regexTake2, hA, hB]
    · match d2, h1 with
      | [a], _ =>
        have hA : a.isDigit = true := hd2d a (by simp)
        rcases hsuf with rfl | ⟨s0, ss, rfl, hs0⟩
        · simp [regexTake2, hA]
        · simp [regexTake2, hA, hs0]
  rw [regexMatchAt]
  simp only [htw]
  rw [if_neg (by simpa [List.isEmpty_iff] using hd1)]
  simp only [hdr, regexAfterDigits]
  simp [hnl, ht2]

theorem regexSearch_shaped (pre rest : List Char)
    (hpre : ∀ x ∈ pre, x.isDigit = false)
    (hhead : ∃ h t, rest = h :: t ∧ h.isDigit = true) :
    regexSearch (pre ++ rest) = regexMatchAt rest := by
  obtain ⟨h, t, rfl, hh⟩ := hhead
  induction pre with
  | nil => simp [regexSearch, hh]
  | cons p ps ih =>
    have hp : p.isDigit = false := hpre p (by simp)
    simp only [List.cons_append, regexSearch, hp]
    rw [if_neg (by simp)]
    exact ih (fun x hx => hpre x (by simp [hx]))

theorem pyFloatParse_decimal (d1 d2 : List Char)
    (hd1 : d1 ≠ []) (hd1d : ∀ x ∈ d1, x.isDigit = true)
    (hd2 : d2 ≠ []) (hd2d : ∀ x ∈ d2, x.isDigit = true) :
    pyFloatParse (d1 ++ '.' :: d2) =
      some (((digitsVal d1 * 10 ^ d2.length + digitsVal d2 : Nat) : Int), 10 ^ d2.length) := by
  obtain ⟨h, t, rfl⟩ : ∃ h t, d1 = h :: t := by
    cases d1 with
    | nil => exact absurd rfl hd1
    | cons h t => exact ⟨h, t, rfl⟩
  have hh : h.isDigit = true := hd1d h (by simp)
  have hdw : List.dropWhile Char.isWhitespace (h :: (t ++ '.' :: d2)) =
      h :: (t ++ '.' :: d2) := by
    rw [List.dropWhile_cons, isDigit_not_ws hh]
    simp
  have htw : List.takeWhile Char.isDigit ((h :: t) ++ '.' :: d2) = h :: t :=
    takeWhile_append_cons (h :: t) '.' d2 hd1d (by decide)
  have hdr : ((h :: t) ++ '.' :: d2).drop (h :: t).length = '.' :: d2 :=
    List.drop_left (h :: t) _
  simp only [List.cons_append] at htw hdr
  have hcore : parseDecCore (h :: (t ++ '.' :: d2)) =
      some ((digitsVal (h :: t) * 10 ^ d2.length + digitsVal d2, 10 ^ d2.length), []) := by
    rw [parseDecCore]
    simp only [htw, hdr]
    rw [takeWhile_all d2 hd2d]
    rw [if_neg (by simp)]
    simp [List.drop_length]
  have hmag : pyFloatMag (h :: (t ++ '.' :: d2)) =
      some (digitsVal (h :: t) * 10 ^ d2.length + digitsVal d2, 10 ^ d2.length) := by
    rw [pyFloatMag]
    simp only [hcore]
  rw [pyFloatParse]
  simp only [List.cons_append, hdw,
    isDigit_ne_char hh (by decide : ('-').isDigit = false),
    isDigit_ne_char hh (by decide : ('+').isDigit = false),
    Bool.false_eq_true, if_false, hmag, Option.map_some']

set_option maxRecDepth 8192 in
/-- Claim C3 counterexample: the claim as stated is false on the code.  For
the well-formed price cell `"$0.29"` the coercion yields 28 cents — Python
evaluates `int(float("0.29") * 100)`, and the binary64 value of `0.29`
times `100` is `28.999999999999996...`, truncated to 28 — which differs
from `round(0.29 * 100) = 29` required by the claim. -/
theorem price_parse_029 :
    convert_price "$0.29" = Except.ok 28 ∧ round ((29 : ℚ) / 100 * 100) = 29 ∧
    (28 : Int) ≠ 29 := by
  refine ⟨by decide, ?_, by decide⟩
  rw [show (29 : ℚ) / 100 * 100 = ((29 : Int) : ℚ) by norm_num, round_intCast]

set_option maxRecDepth 8192 in
/-- Claim C3 (amended): for every price cell of the form
`decoration ++ digits ++ "." ++ one-or-two digits ++ trailing text` — the
decoration containing no digit, and the trailing text absent or starting
with a non-digit when only one fractional digit is present — with exact
cents value `N ≤ 2^45`, the coercion returns `N` or `N - 1` cents: binary64
rounding in `int(float(text) * 100)` can lose (at most) one cent relative
to `round(amount * 100)`, e.g. `"$0.29"` gives 28; `"$12.50"` gives exactly
1250. -/
theorem convert_price_wellformed (pre d1 d2 suf : List Char)
    (hpre : ∀ x ∈ pre, x.isDigit = false)
    (hd1 : d1 ≠ []) (hd1d : ∀ x ∈ d1, x.isDigit = true)
    (hd2 : d2 ≠ []) (hd2d : ∀ x ∈ d2, x.isDigit = true)
    (hshape : d2.length = 2 ∨ (d2.length = 1 ∧
      (suf = [] ∨ ∃ s0 ss, suf = s0 :: ss ∧ s0.isDigit = false)))
    (hNB : (digitsVal d1 * 10 ^ d2.length + digitsVal d2) * 10 ^ (2 - d2.length) ≤ 2 ^ 45) :
    convert_price (String.mk (pre ++ d1 ++ '.' :: (d2 ++ suf))) =
      .ok (((digitsVal d1 * 10 ^ d2.length + digitsVal d2) * 10 ^ (2 - d2.length) : Nat) : Int) ∨
    convert_price (String.mk (pre ++ d1 ++ '.' :: (d2 ++ suf))) =
      .ok ((((digitsVal d1 * 10 ^ d2.length + digitsVal d2) * 10 ^ (2 - d2.length) : Nat) : Int)
        - 1) := by
  set num := digitsVal d1 * 10 ^ d2.length + digitsVal d2 with hnum
  set N := num * 10 ^ (2 - d2.length) with hNdef
  have hhead : ∃ h t, d1 ++ '.' :: (d2 ++ suf) = h :: t ∧ h.isDigit = true := by
    cases d1 with
    | nil => exact absurd rfl hd1
    | cons h t => exact ⟨h, t ++ '.' :: (d2 ++ suf), by simp, hd1d h (by simp)⟩
  have hs : regexSearch (String.mk (pre ++ d1 ++ '.' :: (d2 ++ suf))).data =
      some (d1 ++ '.' :: d2) := by
    show regexSearch (pre ++ d1 ++ '.' :: (d2 ++ suf)) = _
    rw [List.append_assoc, regexSearch_shaped pre _ hpre hhead]
    exact regexMatchAt_shaped d1 d2 suf hd1 hd1d hd2d hshape
  have hfl : pyFloat (d1 ++ '.' :: d2) =
      some (mkPyFloat (roundRat (num : Int) (10 ^ d2.length))) := by
    rw [pyFloat, pyFloatParse_decimal d1 d2 hd1 hd1d hd2 hd2d, Option.map_some']
  rw [convert_price]
  simp only [hs, hfl]
  by_cases hz : num = 0
  · left
    have hN0 : N = 0 := by rw [hNdef, hz, Nat.zero_mul]
    rw [hz, hN0]
    have h1 : roundRat ((0 : Nat) : Int) (10 ^ d2.length) = ⟨0, 0⟩ := by
      rw [roundRat, if_neg (by omega)]
      simp [roundPosRat]
    rw [h1]
    decide
  · have hk12 : d2.length = 1 ∨ d2.length = 2 := by
      rcases hshape with h2 | ⟨h1, _⟩
      · right; exact h2
      · left; exact h1
    have hnum1 : 1 ≤ num := by omega
    have hfac1 : 1 ≤ 10 ^ (2 - d2.length) := Nat.one_le_pow _ _ (by omega)
    have hnumN : num ≤ N := by
      calc num = num * 1 := by ring
        _ ≤ num * 10 ^ (2 - d2.length) := Nat.mul_le_mul_left num hfac1
    have hN1 : 1 ≤ N := le_trans hnum1 hnumN
    have hcross : 100 * num = N * 10 ^ d2.length := by
      rw [hNdef]
      have hpow : 10 ^ (2 - d2.length) * 10 ^ d2.length = 100 := by
        rw [← pow_add]
        rcases hk12 with h | h <;> rw [h] <;> norm_num
      calc 100 * num = num * (10 ^ (2 - d2.length) * 10 ^ d2.length) := by rw [hpow]; ring
        _ = num * 10 ^ (2 - d2.length) * 10 ^ d2.length := by ring
    obtain ⟨hOF1, hOF2, hres⟩ := trunc_mul100 num (10 ^ d2.length) N hnum1
      (Nat.one_le_pow _ _ (by omega))
      (by calc num ≤ N := hnumN
            _ ≤ 2 ^ 45 := hNB
            _ ≤ 2 ^ 100 := by norm_num)
      (by rcases hk12 with h | h <;> rw [h] <;> norm_num)
      hN1 hNB hcross
    have hfin1 : mkPyFloat (roundRat (num : Int) (10 ^ d2.length)) =
        PyFloat.finite (roundRat (num : Int) (10 ^ d2.length)) := mkPyFloat_finite _ hOF1
    have hfin2 : mkPyFloat (dblMulNat (roundRat (num : Int) (10 ^ d2.length)) 100) =
        PyFloat.finite (dblMulNat (roundRat (num : Int) (10 ^ d2.length)) 100) :=
      mkPyFloat_finite _ hOF2
    simp only [hfin1, pyMulNat_finite, hfin2]
    rcases hres with h | h
    · left
      rw [h]
    · right
      rw [h]

theorem convert_price_wellformed_witness :
    convert_price (String.mk ['$', '1', '2', '.', '5', '0']) = Except.ok 1250 ∨
    convert_price (String.mk ['$', '1', '2', '.', '5', '0']) = Except.ok (1250 - 1) := by
  have h := convert_price_wellformed ['$'] ['1', '2'] ['5', '0'] []
    (by decide) (by decide) (by decide) (by decide) (by decide)
    (Or.inl rfl) (by decide)
  exact h

theorem regexMatchAt_isSome (c : Char) (t : List Char) (hc : c.isDigit = true) :
    ∃ m, regexMatchAt (c :: t) = some m := by
  have htw : (c :: t).takeWhile Char.isDigit = c :: t.takeWhile Char.isDigit := by
    simp [List.takeWhile_cons, hc]
  rw [regexMatchAt]
  simp only [htw]
  rw [if_neg (by simp)]
  exact ⟨_, rfl⟩

theorem regexSearch_some_of_digit :
    ∀ cs : List Char, cs.any Char.isDigit = true → ∃ m, regexSearch cs = some m := by
  intro cs
  induction cs with
  | nil => intro h; cases h
  | cons c t ih =>
    intro h
    by_cases hc : c.isDigit = true
    · obtain ⟨m, hm⟩ := regexMatchAt_isSome c t hc
      exact ⟨m, by rw [regexSearch, if_pos hc, hm]⟩
    · have ht : t.any Char.isDigit = true := by
        rcases List.any_eq_true.mp h with ⟨x, hx, hxd⟩
        rcases List.mem_cons.mp hx with rfl | hx'
        · exact absurd hxd hc
        · exact List.any_eq_true.mpr ⟨x, hx', hxd⟩
      obtain ⟨m, hm⟩ := ih ht
      exact ⟨m, by rw [regexSearch, if_neg hc, hm]⟩

theorem regexSearch_head (cs : List Char) :
    ∀ m, regexSearch cs = some m → ∃ h0 t0, m = h0 :: t0 ∧ h0.isDigit = true := by
  induction cs with
  | nil => intro m h; cases h
  | cons c t ih =>
    intro m h
    by_cases hc : c.isDigit = true
    · rw [regexSearch, if_pos hc] at h
      have htw : (c :: t).takeWhile Char.isDigit = c :: t.takeWhile Char.isDigit := by
        simp [List.takeWhile_cons, hc]
      rw [regexMatchAt] at h
      simp only [htw] at h
      rw [if_neg (by simp)] at h
      refine ⟨c, List.takeWhile Char.isDigit t ++
        regexAfterDigits (List.drop (c :: List.takeWhile Char.isDigit t).length (c :: t)),
        ?_, hc⟩
      rw [← Option.some.inj h]
      simp
    · rw [regexSearch, if_neg hc] at h
      exact ih m h

theorem pyFloatParse_nonneg (h0 : Char) (t0 : List Char) (hd : h0.isDigit = true)
    (v : Int × Nat) (h : pyFloatParse (h0 :: t0) = some v) : 0 ≤ v.1 := by
  have hdw : List.dropWhile Char.isWhitespace (h0 :: t0) = h0 :: t0 := by
    rw [List.dropWhile_cons, isDigit_not_ws hd]
    simp
  rw [pyFloatParse] at h
  simp only [hdw, isDigit_ne_char hd (by decide : ('-').isDigit = false),
    isDigit_ne_char hd (by decide : ('+').isDigit = false),
    Bool.false_eq_true, if_false] at h
  obtain ⟨p, _, hv⟩ := Option.map_eq_some'.mp h
  rw [← hv]
  exact Int.natCast_nonneg _

theorem roundPosRat_m_nonneg (p q : Nat) : 0 ≤ (roundPosRat p q).m := by
  rw [roundPosRat]
  split
  · exact le_refl 0
  · exact Int.natCast_nonneg _

theorem roundRat_m_nonneg (a : Int) (b : Nat) (ha : 0 ≤ a) : 0 ≤ (roundRat a b).m := by
  rw [roundRat, if_neg (by omega)]
  exact roundPosRat_m_nonneg _ _

theorem roundScaledN_m_nonneg (p : Nat) (e : Int) : 0 ≤ (roundScaledN p e).m := by
  rw [roundScaledN]
  split
  · exact roundPosRat_m_nonneg _ _
  · exact roundPosRat_m_nonneg _ _

theorem dblMulNat_m_nonneg (d : Dbl) (n : Nat) (hm : 0 ≤ d.m) : 0 ≤ (dblMulNat d n).m := by
  rw [dblMulNat, if_neg (by omega)]
  exact roundScaledN_m_nonneg _ _

theorem dblTrunc_nonneg (d : Dbl) (hm : 0 ≤ d.m) : 0 ≤ dblTrunc d := by
  rw [dblTrunc, if_neg (by omega)]
  exact Int.natCast_nonneg _

set_option maxRecDepth 8192 in
/-- Claim C7 counterexample: the claim is false on the code.  The
interactive add path (`_get_product_info`) coerces the price input with
`int(float(text) * 100)` and the quantity with `int(text)` without any sign
check, so entering `-3` as the price and `-5` as the quantity builds a
record with `price_cents = -300 < 0` and `quantity = -5 < 0`, and
`_save_product` persists it. -/
theorem negative_price_accepted :
    get_product_price "-3" = some (-300) ∧
    get_product_quantity "-5" = some (-5) ∧
    save_product [] ⟨"Thing", -5, -300, ⟨2024, 1, 1⟩⟩ =
      ([⟨"Thing", -5, -300, ⟨2024, 1, 1⟩⟩], SaveResult.inserted) ∧
    ((-300 : Int) < 0) := by decide

/-- Claim C7 (amended): prices parsed by the batch importer are always
non-negative — the regex match begins with a digit, so the floated text is
unsigned — but quantities from import rows and both interactive-add fields
are unvalidated and can be negative. -/
theorem import_price_nonneg (s : String) (c : Int)
    (h : convert_price s = Except.ok c) : 0 ≤ c := by
  rcases hsr : regexSearch s.data with _ | m
  · rw [convert_price] at h
    simp only [hsr] at h
    cases h
  · rcases hfl : pyFloat m with _ | f
    · rw [convert_price] at h
      simp only [hsr, hfl] at h
      cases h
    · rcases hmulr : pyMulNat f 100 with d | b
      · rw [convert_price] at h
        simp only [hsr, hfl, hmulr] at h
        have hc : dblTrunc d = c := Except.ok.inj h
        obtain ⟨h0, t0, hm0, hd0⟩ := regexSearch_head s.data m hsr
        rw [pyFloat] at hfl
        obtain ⟨v, hv, hfv⟩ := Option.map_eq_some'.mp hfl
        have hv1 : 0 ≤ v.1 := pyFloatParse_nonneg h0 t0 hd0 v (by rw [← hm0]; exact hv)
        have hrm : 0 ≤ (roundRat v.1 v.2).m := roundRat_m_nonneg v.1 v.2 hv1
        rcases f with fd | fb
        · have hfd : fd = roundRat v.1 v.2 := mkPyFloat_finite_inv _ _ hfv
          rw [pyMulNat_finite] at hmulr
          have hd2 : d = dblMulNat fd 100 := mkPyFloat_finite_inv _ _ hmulr
          rw [← hc, hd2, hfd]
          exact dblTrunc_nonneg _ (dblMulNat_m_nonneg _ 100 hrm)
        · have hcon : PyFloat.inf fb = PyFloat.finite d := hmulr
          cases hcon
      · rw [convert_price] at h
        simp only [hsr, hfl, hmulr] at h
        cases h

set_option maxRecDepth 8192 in
theorem import_price_nonneg_witness : (0 : Int) ≤ 1250 :=
  import_price_nonneg "$12.50" 1250 (by decide)

/-- Claim C10 counterexample: the claim is false on the code.  For the
price cell `"$1,234.56"` — which contains digits and a well-formed decimal
amount under a thousands separator — the pattern `\d+.?\d{0,2}` extracts
`"1,23"` (the unescaped `.` matches the comma), and `float("1,23")` raises
a `ValueError` that nothing catches, rather than returning cents or
reporting a per-field parse failure. -/
theorem price_uncaught_valueerror :
    regexSearch "$1,234.56".data = some ['1', ',', '2', '3'] ∧
    convert_price "$1,234.56" = Except.error PriceFail.value := by decide

/-- Claim C10 (amended): for every price cell containing at least one
digit, the pattern search succeeds, so the coercion never raises the
`AttributeError` from a failed match.  Its outcome is one of three
things, none of them a reported per-field failure: it returns an integer
cents value; or it raises the uncaught `ValueError` from `float()` on
extracted text that is not a float literal (e.g. `"$1,234.56"`, whose
extract is `"1,23"`); or — when the extracted amount overflows binary64
(beyond about `1.8e308`) — `float()` returns `inf` and `int(inf)` raises
an uncaught `OverflowError`. -/
theorem price_digit_no_attr (s : String) (hdig : s.data.any Char.isDigit = true) :
    (∃ c, convert_price s = Except.ok c) ∨
    convert_price s = Except.error PriceFail.value ∨
    convert_price s = Except.error PriceFail.overflow := by
  obtain ⟨m, hm⟩ := regexSearch_some_of_digit s.data hdig
  rcases hf : pyFloat m with _ | f
  · right
    left
    rw [convert_price]
    simp only [hm, hf]
  · rcases hmul : pyMulNat f 100 with d | b
    · left
      refine ⟨dblTrunc d, ?_⟩
      rw [convert_price]
      simp only [hm, hf, hmul]
    · right
      right
      rw [convert_price]
      simp only [hm, hf, hmul]

theorem price_digit_no_attr_witness :
    (∃ c, convert_price "$1,234.56" = Except.ok c) ∨
    convert_price "$1,234.56" = Except.error PriceFail.value ∨
    convert_price "$1,234.56" = Except.error PriceFail.overflow :=
  price_digit_no_attr "$1,234.56" (by decide)

set_option maxRecDepth 30000 in
/-- The overflow arm is reachable: a price cell of 309 nines (about
`1e309`, beyond the largest finite double `1.7976931348623157e308`) is
matched whole by the pattern, `float()` returns `inf` without raising,
and `int(inf)` raises `OverflowError`. -/
theorem convert_price_overflow_example :
    convert_price (String.mk (List.replicate 309 '9')) =
      Except.error PriceFail.overflow := by decide

set_option maxRecDepth 8192 in
/-- Claim C4: the code contradicts the claim (and the spec's stated
intent).  `_convert_csv` has no per-row error handling: a price cell of
`"free"` makes `re.search` return `None`, `.group()` raises
`AttributeError`, the exception propagates out of `go`, and — since
`_save_csv` only runs after the whole conversion loop — no row of the
batch is applied.  The same batch without the bad row imports fully,
showing the other rows were individually fine. -/
theorem batch_abort_on_bad_row :
    convert_row ⟨"Widget", "$1.00", "5", "1/1/2024"⟩ =
      Except.ok ⟨"Widget", 5, 100, ⟨2024, 1, 1⟩⟩ ∧
    convert_price "free" = Except.error PriceFail.attr ∧
    import_csv [] [⟨"Widget", "$1.00", "5", "1/1/2024"⟩, ⟨"Gizmo", "free", "2", "1/2/2024"⟩,
      ⟨"Gadget", "$2.50", "7", "1/3/2024"⟩] = Except.error RowFail.price_attr ∧
    import_csv [] [⟨"Widget", "$1.00", "5", "1/1/2024"⟩,
      ⟨"Gadget", "$2.50", "7", "1/3/2024"⟩] =
      Except.ok [⟨"Widget", 5, 100, ⟨2024, 1, 1⟩⟩, ⟨"Gadget", 7, 250, ⟨2024, 1, 3⟩⟩] := by
  decide

/-- Claim C8 counterexample: the claim is false on the code.  The export
renders the price with `f"${price/100}"`, i.e. float true division and
`str()`, which produces the shortest round-tripping decimal — for a stored
price of 1250 cents the cell is `"$12.5"`, not the two-decimal `"$12.50"`
the claim requires. -/
theorem export_price_not_two_decimals :
    convert_db_row ⟨"Widget", .i 1250, .i 5, .d ⟨2024, 1, 5⟩⟩ =
      Except.ok ⟨"Widget", .s "$12.5", .s "5", .s "01/05/2024"⟩ ∧
    "$12.5" ≠ "$12.50" := by decide

/-- Claim C8 (amended): a backup started with an empty `self.products`
list writes a header row with the import format's four field names, then
exactly one row per stored record in order, with the quantity as plain
decimal text and the date in (zero-padded) M/D/YYYY order; the price is
`"$"` followed by Python's `str` of `price_cents / 100` computed in
binary64 — the shortest round-tripping decimal, not a fixed two-decimal
rendering (1250 cents renders as `"$12.5"`). -/
theorem export_format (db : List Product) :
    backup db [] = Except.ok
      (import_fieldnames ::
        db.map (fun p => [p.product_name,
          "$" ++ pyRepr (roundRat p.product_price 100),
          intRepr p.product_quantity,
          pad2 p.date_updated.month ++ "/" ++ pad2 p.date_updated.day ++ "/" ++
            pad4 p.date_updated.year]),
       db.map (fun p => ⟨p.product_name,
          .s ("$" ++ pyRepr (roundRat p.product_price 100)),
          .s (intRepr p.product_quantity),
          .s (pad2 p.date_updated.month ++ "/" ++ pad2 p.date_updated.day ++ "/" ++
            pad4 p.date_updated.year)⟩)) := by
  have key : ∀ l : List Product, convert_db (load_db l) = Except.ok
      (l.map (fun p => ⟨p.product_name,
        .s ("$" ++ pyRepr (roundRat p.product_price 100)),
        .s (intRepr p.product_quantity),
        .s (strftime_out_mdY p.date_updated)⟩)) := by
    intro l
    induction l with
    | nil => rfl
    | cons p t ih =>
      show convert_db
        (⟨p.product_name, .i p.product_price, .i p.product_quantity, .d p.date_updated⟩ ::
          load_db t) = _
      rw [convert_db]
      simp only [convert_db_row, ih, cellStr, List.map_cons]
  rw [backup]
  simp only [List.nil_append, key]
  rw [save_db]
  simp [List.map_map, Function.comp, cellStr, strftime_out_mdY]

/-- Claim C9: the claim is right and the code is wrong.  `_backup` is not
a pure read: `_load_db` appends to `self.products` without clearing it and
`_convert_db` converts the dictionaries to strings in place, so after one
successful backup the stale string rows remain.  A second backup appends
fresh rows after them and then crashes with an uncaught `TypeError` when
`_convert_db` divides the stale string price `"$12.5"` by 100, instead of
rewriting the same file. -/
theorem second_backup_type_error :
    backup [⟨"Widget", 5, 1250, ⟨2024, 1, 5⟩⟩] [] =
      Except.ok ([["product_name", "product_price", "product_quantity", "date_updated"],
        ["Widget", "$12.5", "5", "01/05/2024"]],
        [⟨"Widget", .s "$12.5", .s "5", .s "01/05/2024"⟩]) ∧
    backup [⟨"Widget", 5, 1250, ⟨2024, 1, 5⟩⟩]
      [⟨"Widget", .s "$12.5", .s "5", .s "01/05/2024"⟩] =
      Except.error BackupFail.price_type := by decide
